import Mathlib

/-!
# Package installation and verification (`cmd/pke/app/util/linux/yum.go`)

A shallow embedding of the yum installer: the query-output parser
`parseRpmPackageOutput`, the version mapper `mapYumPackageVersion`, the batched
install-and-verify `YumInstall` and the role-specific entry points.

Modelling conventions.

* A Go `string` is a sequence of characters (`GoString`).  The source only ever
  searches for the one-byte separators `"."` and `"-"` and slices at the
  positions found, so positions in the sequence play the role of byte offsets.
* A slice expression that is out of range is a run-time panic in Go; the slicing
  functions return `none` there and the callers turn it into `Res.panic`.
* The command runner (`runner.Cmd(...)`) is an external collaborator.  It is a
  function from the invocations made so far and the present invocation to the
  captured output and the error value; every function that runs commands
  returns, next to its result, the list of invocations it made, in order.
  The `io.Writer` sink only receives streamed output and is left out.
-/

namespace Pke

/-- A Go string. -/
abbrev GoString := List Char

/-! ## Constants of the source file -/

def dotS : GoString := ".".toList
def dashS : GoString := "-".toList
def cmdYum : GoString := "/bin/yum".toList
def cmdRpm : GoString := "/bin/rpm".toList
def kubeadm : GoString := "kubeadm".toList
def kubectl : GoString := "kubectl".toList
def kubelet : GoString := "kubelet".toList
def kubernetescni : GoString := "kubernetes-cni".toList
def disableExcludesKubernetes : GoString := "--disableexcludes=kubernetes".toList

/-! ## Errors and results -/

/-- One piece of a formatted message: literal text of the format string, or an
argument rendered by the `%q` verb of `fmt.Sprintf`. -/
inductive Piece where
  | text (s : GoString)
  | quoted (s : GoString)
deriving DecidableEq, Repr

/-- A message built by `fmt.Sprintf`, kept as its pieces in order. -/
abbrev Message := List Piece

/-- The text of a message, given the rendering of the `%q` verb
(`strconv.Quote` of the Go standard library). -/
def Message.render (quote : GoString → GoString) : Message → GoString
  | [] => []
  | Piece.text s :: rest => s ++ Message.render quote rest
  | Piece.quoted s :: rest => quote s ++ Message.render quote rest

/-- Go `error` values that occur in this file. -/
inductive GoError where
  /-- The value of `errors.New(msg)`. -/
  | new (msg : Message)
  /-- The value of `errors.Wrap(cause, msg)`. -/
  | wrap (cause : GoError) (msg : GoString)
  /-- An error value made by the command runner. -/
  | command (description : GoString)
deriving DecidableEq, Repr

/-- The package-level value `errorUnableToParseRPMOutput`. -/
def errorUnableToParseRPMOutput : GoError :=
  GoError.new [Piece.text "Unable to parse rpm output".toList]

/-- How a call ends: it returns a value, it returns a non-nil `error`, or it
panics at run time. -/
inductive Res (α : Type) where
  | ok (a : α)
  | error (e : GoError)
  | panic
deriving DecidableEq, Repr

/-! ## Go string primitives -/

/-- The slice expression `s[lo:]`; `none` when `lo` is out of range. -/
def sliceFrom (s : GoString) (lo : Int) : Option GoString :=
  if 0 ≤ lo ∧ lo ≤ (s.length : Int) then some (s.drop lo.toNat) else none

/-- The slice expression `s[:hi]`; `none` when `hi` is out of range. -/
def sliceTo (s : GoString) (hi : Int) : Option GoString :=
  if 0 ≤ hi ∧ hi ≤ (s.length : Int) then some (s.take hi.toNat) else none

/-- Position of the last occurrence of `substr` in `s`, if any. -/
def lastIndex? : GoString → GoString → Option Nat
  | [], substr => if substr = [] then some 0 else none
  | c :: cs, substr =>
    match lastIndex? cs substr with
    | some i => some (i + 1)
    | none => if substr.isPrefixOf (c :: cs) then some 0 else none

/-- Go `strings.LastIndex(s, substr)`: the index of the last instance of `substr`
in `s`, or `-1` if `substr` is not present in `s`. -/
def LastIndex (s substr : GoString) : Int :=
  match lastIndex? s substr with
  | some i => (i : Int)
  | none => -1

/-! ## The query-output parser -/

/-- The four fields decoded from a query output. -/
structure RpmPackage where
  name : GoString
  version : GoString
  release : GoString
  arch : GoString
deriving DecidableEq, Repr

/-- Function `parseRpmPackageOutput` (yum.go, lines 92-118). -/
def parseRpmPackageOutput (pkg : GoString) : Res RpmPackage :=
  let idx := LastIndex pkg dotS
  if idx < 0 then Res.error errorUnableToParseRPMOutput
  else
    match sliceFrom pkg (idx + 1), sliceTo pkg idx with
    | some arch, some pkg1 =>
      let idx1 := LastIndex pkg1 dashS
      if idx1 < 0 then Res.error errorUnableToParseRPMOutput
      else
        match sliceFrom pkg1 (idx1 + 1), sliceTo pkg1 idx1 with
        | some release, some pkg2 =>
          let idx2 := LastIndex pkg2 dashS
          if idx2 < 0 then Res.error errorUnableToParseRPMOutput
          else
            match sliceFrom pkg2 (idx2 + 1), sliceTo pkg2 idx2 with
            | some version, some name => Res.ok ⟨name, version, release, arch⟩
            | _, _ => Res.panic
        | _, _ => Res.panic
    | _, _ => Res.panic

/-! ## The command runner -/

/-- One command run through `runner.Cmd(out, name, args...)`. -/
structure Invocation where
  name : GoString
  args : List GoString
deriving DecidableEq, Repr

/-- The command runner: given the invocations made before and the present one,
the captured output and the error (`none` for a nil error). -/
abbrev Executor := List Invocation → Invocation → GoString × Option GoError

/-- The query invocation of `rpmQuery`: `cmdRpm` with the arguments `-q pkg`. -/
def rpmInvocation (pkg : GoString) : Invocation :=
  ⟨cmdRpm, ["-q".toList, pkg]⟩

/-- The install invocation of `YumInstall`: `cmdYum` with the arguments
`install`, `-y` and then the packages. -/
def yumInvocation (packages : List GoString) : Invocation :=
  ⟨cmdYum, ["install".toList, "-y".toList] ++ packages⟩

/-- Function `rpmQuery` (yum.go, lines 83-90), run after the invocations `hist`. -/
def rpmQuery (run : Executor) (hist : List Invocation) (pkg : GoString) : Res RpmPackage :=
  match run hist (rpmInvocation pkg) with
  | (_, some err) => Res.error err
  | (b, none) => parseRpmPackageOutput b

/-! ## Batched install-and-verify -/

/-- The fully qualified identity `name-ver-rel.arch` rebuilt from decoded fields. -/
def RpmPackage.full (p : RpmPackage) : GoString :=
  p.name ++ "-".toList ++ p.version ++ "-".toList ++ p.release ++ ".".toList ++ p.arch

/-- The error of line 77, `errors.New(fmt.Sprintf(format, pkg, full))`: the
format has two `%q` verbs, for the requested entry and the rebuilt identity. -/
def mismatchError (pkg : GoString) (p : RpmPackage) : GoError :=
  GoError.new [Piece.text "expected packgae version after installation: ".toList,
    Piece.quoted pkg, Piece.text ", got: ".toList, Piece.quoted p.full]

/-- The condition of lines 71-74 of `YumInstall`. -/
def matchesRequest (p : RpmPackage) (pkg : GoString) : Bool :=
  decide (p.name = pkg) ||
  decide (p.name ++ "-".toList ++ p.version = pkg) ||
  decide (p.name ++ "-".toList ++ p.version ++ "-".toList ++ p.release = pkg) ||
  decide (p.name ++ "-".toList ++ p.version ++ "-".toList ++ p.release ++ ".".toList ++ p.arch
    = pkg)

/-- The `for _, pkg := range packages` loop of `YumInstall` (lines 62-78), run
after the invocations `hist`: its result and the invocations it makes. -/
def verifyPackages (run : Executor) :
    List Invocation → List GoString → Res Unit × List Invocation
  | _, [] => (Res.ok (), [])
  | hist, pkg :: rest =>
    match sliceTo pkg 1 with
    | none => (Res.panic, [])
    | some first =>
      if first = "-".toList then verifyPackages run hist rest
      else
        match rpmQuery run hist pkg with
        | Res.error err => (Res.error err, [rpmInvocation pkg])
        | Res.panic => (Res.panic, [rpmInvocation pkg])
        | Res.ok p =>
          if matchesRequest p pkg then
            let r := verifyPackages run (hist ++ [rpmInvocation pkg]) rest
            (r.1, rpmInvocation pkg :: r.2)
          else (Res.error (mismatchError pkg p), [rpmInvocation pkg])

/-- Function `YumInstall` (yum.go, lines 56-81): its result and the invocations it makes. -/
def YumInstall (run : Executor) (packages : List GoString) : Res Unit × List Invocation :=
  match run [] (yumInvocation packages) with
  | (_, some err) => (Res.error err, [yumInvocation packages])
  | (_, none) =>
    let r := verifyPackages run [yumInvocation packages] packages
    (r.1, yumInvocation packages :: r.2)

/-! ## Semantic versions

The source imports the library `github.com/Masterminds/semver` (version 1),
which is not part of the source tree.  This section follows that library for
what `mapYumPackageVersion` uses of it: `NewVersion`, the value of
`NewConstraint` on the literal of line 220, and `Constraints.Check`. -/

/-- The library's `Version`: three numeric segments (`int64`, never negative),
the pre-release and the build metadata. -/
structure Version where
  major : Nat
  minor : Nat
  patch : Nat
  pre : GoString
  metadata : GoString
deriving DecidableEq, Repr

/-- The value of a non-empty string of decimal digits. -/
def decimal? (s : GoString) : Option Nat :=
  if s = [] then none
  else s.foldl (fun acc c => acc.bind fun n =>
    if c.isDigit then some (10 * n + (c.toNat - '0'.toNat)) else none) (some 0)

/-- Go `strconv.ParseInt(s, 10, 64)` on a string of decimal digits: `none`
(a range error) when the value does not fit `int64`. -/
def parseInt64 (s : GoString) : Option Nat :=
  (decimal? s).bind fun n => if n < 2 ^ 63 then some n else none

/-- The pieces of a string between its `.` characters. -/
def splitDots : GoString → List GoString
  | [] => [[]]
  | c :: cs =>
    match splitDots cs with
    | [] => [[c]]
    | seg :: segs => if c = '.' then [] :: seg :: segs else (c :: seg) :: segs

/-- The longest run of decimal digits at the start of a string, and the rest. -/
def splitDigits : GoString → GoString × GoString
  | [] => ([], [])
  | c :: cs =>
    if c.isDigit then (c :: (splitDigits cs).1, (splitDigits cs).2) else ([], c :: cs)

/-- One optional group `(\.[0-9]+)?` of the version pattern: the digits after
a dot and the rest, or no digits and the string unchanged. -/
def dottedSegment (s : GoString) : GoString × GoString :=
  match s with
  | '.' :: r => if (splitDigits r).1 = [] then ([], s) else splitDigits r
  | _ => ([], s)

/-- The pattern `[0-9A-Za-z\-]+(\.[0-9A-Za-z\-]+)*` of pre-release and
metadata. -/
def validIdentifiers (body : GoString) : Bool :=
  (splitDots body).all fun part =>
    !part.isEmpty && part.all fun c => c.isAlphanum || c == '-'

/-- The end of the version pattern, the optional group `(\+(...))?` followed by
the end of the text: the metadata, or `none` when the text does not match. -/
def parseMetadata (s : GoString) : Option GoString :=
  match s with
  | [] => some []
  | '+' :: body => if validIdentifiers body then some body else none
  | _ => none

/-- The optional group `(-(...))?` of the version pattern followed by the
metadata group: pre-release and metadata, or `none` when the text does not
match. -/
def parseSuffix (s : GoString) : Option (GoString × GoString) :=
  match s with
  | '-' :: t =>
    if validIdentifiers (t.takeWhile fun c => c != '+') then
      (parseMetadata (t.dropWhile fun c => c != '+')).map fun m =>
        (t.takeWhile fun c => c != '+', m)
    else none
  | _ => (parseMetadata s).map fun m => ([], m)

/-- A numeric segment of `NewVersion`: 0 when the optional group is absent,
else `strconv.ParseInt` of its digits. -/
def segmentValue (digits : GoString) : Option Nat :=
  if digits = [] then some 0 else parseInt64 digits

/-- Library `semver.NewVersion`: the text must match
`^v?([0-9]+)(\.[0-9]+)?(\.[0-9]+)?(-pre)?(\+metadata)?$` and each numeric
segment must fit `int64`; `none` stands for the nil version that is returned
together with an error. -/
def NewVersion (v : GoString) : Option Version :=
  let s := match v with
    | 'v' :: r => r
    | _ => v
  let d1 := (splitDigits s).1
  let d2 := (dottedSegment (splitDigits s).2).1
  let d3 := (dottedSegment (dottedSegment (splitDigits s).2).2).1
  if d1 = [] then none
  else
    match parseSuffix (dottedSegment (dottedSegment (splitDigits s).2).2).2 with
    | none => none
    | some (pre, metadata) =>
      match parseInt64 d1, segmentValue d2, segmentValue d3 with
      | some ma, some mi, some pa => some ⟨ma, mi, pa, pre, metadata⟩
      | _, _, _ => none

/-- Library `compareSegment`: comparison of one numeric segment. -/
def compareSegment (v o : Nat) : Int :=
  if v < o then -1 else if v > o then 1 else 0

/-- The version a constraint compares with.  The three constraint versions of
the literal of line 220 have no pre-release, so only the numeric segments are
kept. -/
structure Release where
  major : Nat
  minor : Nat
  patch : Nat
deriving DecidableEq, Repr

/-- Library `Version.Compare` of a version without pre-release against a
constraint version without pre-release: major, then minor, then patch, as -1,
0 or 1. -/
def Version.Compare (v : Version) (o : Release) : Int :=
  if compareSegment v.major o.major ≠ 0 then compareSegment v.major o.major
  else if compareSegment v.minor o.minor ≠ 0 then compareSegment v.minor o.minor
  else compareSegment v.patch o.patch

/-- The two comparison functions of the library that the literal of line 220
selects: `constraintGreaterThanEqual` for `>=` and `constraintLessThan` for
`<`. -/
inductive Op where
  | greaterThanEqual
  | lessThan
deriving DecidableEq, Repr

/-- Library `constraint`: the comparison function, the version compared with,
and the flags that `parseConstraint` sets when the version was written with an
`x` wildcard (`dirty`; `minorDirty` for `1.x`, `patchDirty` for `1.13.x`). -/
structure Constraint where
  function : Op
  con : Release
  minorDirty : Bool
  dirty : Bool
  patchDirty : Bool
deriving DecidableEq, Repr

/-- Library `constraintGreaterThanEqual`: a version with a pre-release does not
satisfy a constraint without one; otherwise `v.Compare(c.con) >= 0`. -/
def constraintGreaterThanEqual (v : Version) (c : Constraint) : Bool :=
  if v.pre ≠ [] then false else decide (0 ≤ v.Compare c.con)

/-- Library `constraintLessThan`: a version with a pre-release does not satisfy
a constraint without one; a constraint without wildcard is
`v.Compare(c.con) < 0`; a constraint with a wildcard only rejects a larger
major, or a larger minor when the minor is not the wildcard. -/
def constraintLessThan (v : Version) (c : Constraint) : Bool :=
  if v.pre ≠ [] then false
  else if !c.dirty then decide (v.Compare c.con < 0)
  else if v.major > c.con.major then false
  else if v.minor > c.con.minor && !c.minorDirty then false
  else true

/-- Library `constraint.check`, called with the pointer returned by
`NewVersion`: the comparison functions read the pre-release of the version
first, which is a nil dereference (a panic) on the nil version. -/
def Constraint.check (c : Constraint) : Option Version → Res Bool
  | none => Res.panic
  | some v =>
    match c.function with
    | Op.greaterThanEqual => Res.ok (constraintGreaterThanEqual v c)
    | Op.lessThan => Res.ok (constraintLessThan v c)

/-- The inner loop of `Constraints.Check` over one group of constraints joined
by a comma: it stops at the first constraint that is not satisfied. -/
def checkGroup : List Constraint → Option Version → Res Bool
  | [], _ => Res.ok true
  | c :: cs, v =>
    match c.check v with
    | Res.ok true => checkGroup cs v
    | other => other

/-- Library `Constraints`: alternatives (`||`) of groups (`,`). -/
abbrev Constraints := List (List Constraint)

/-- Library `Constraints.Check`: true as soon as one group is satisfied. -/
def Constraints.Check : Constraints → Option Version → Res Bool
  | [], _ => Res.ok false
  | group :: groups, v =>
    match checkGroup group v with
    | Res.ok false => Constraints.Check groups v
    | other => other

/-- The value of `semver.NewConstraint` on the literal of line 220,
`>=1.12.7,<1.13.x || >=1.13.5`: two alternatives; in the first, `<1.13.x` is
parsed as the version 1.13.0 with the wildcard flags `dirty` and `patchDirty`
set. -/
def cniConstraint : Constraints :=
  [[⟨Op.greaterThanEqual, ⟨1, 12, 7⟩, false, false, false⟩,
    ⟨Op.lessThan, ⟨1, 13, 0⟩, false, true, true⟩],
   [⟨Op.greaterThanEqual, ⟨1, 13, 5⟩, false, false, false⟩]]

/-! ## The version mapper and the entry points -/

/-- Function `mapYumPackageVersion` (yum.go, lines 207-229).  The errors of
`NewVersion` and `NewConstraint` are dropped by the source, so `c.Check` is
called on whatever `NewVersion` returned; the call ends with the string
returned, or in a panic. -/
def mapYumPackageVersion (pkg kubernetesVersion : GoString) : Res GoString :=
  if pkg = kubeadm then Res.ok ("kubeadm-".toList ++ kubernetesVersion ++ "-0".toList)
  else if pkg = kubectl then Res.ok ("kubectl-".toList ++ kubernetesVersion ++ "-0".toList)
  else if pkg = kubelet then Res.ok ("kubelet-".toList ++ kubernetesVersion ++ "-0".toList)
  else if pkg = kubernetescni then
    match cniConstraint.Check (NewVersion kubernetesVersion) with
    | Res.ok true => Res.ok "kubernetes-cni-0.7.5-0".toList
    | Res.ok false => Res.ok "kubernetes-cni-0.6.0-0".toList
    | Res.error e => Res.error e
    | Res.panic => Res.panic
  else Res.ok []

/-- Sequencing of calls: the next step runs when the call returned a value. -/
def Res.bind {α β : Type} (r : Res α) (f : α → Res β) : Res β :=
  match r with
  | Res.ok a => f a
  | Res.error e => Res.error e
  | Res.panic => Res.panic

/-- The slice literal `p` of `InstallKubernetesPackages` (lines 176-182), its
elements evaluated in order. -/
def kubernetesPackageList (kubernetesVersion : GoString) : Res (List GoString) :=
  (mapYumPackageVersion kubelet kubernetesVersion).bind fun a =>
  (mapYumPackageVersion kubeadm kubernetesVersion).bind fun b =>
  (mapYumPackageVersion kubectl kubernetesVersion).bind fun c =>
  (mapYumPackageVersion kubernetescni kubernetesVersion).bind fun d =>
  Res.ok [a, b, c, d, disableExcludesKubernetes]

/-- The slice literal `pkg` of `InstallKubeadmPackage` (lines 189-194), its
elements evaluated in order. -/
def kubeadmPackageList (kubernetesVersion : GoString) : Res (List GoString) :=
  (mapYumPackageVersion kubeadm kubernetesVersion).bind fun a =>
  (mapYumPackageVersion kubelet kubernetesVersion).bind fun b =>
  (mapYumPackageVersion kubernetescni kubernetesVersion).bind fun c =>
  Res.ok [a, b, c, disableExcludesKubernetes]

/-- Function `YumInstaller.InstallKubernetesPackages` (yum.go, lines 174-185):
when building the list panics, no command is run. -/
def InstallKubernetesPackages (run : Executor) (kubernetesVersion : GoString) :
    Res Unit × List Invocation :=
  match kubernetesPackageList kubernetesVersion with
  | Res.ok p => YumInstall run p
  | Res.error e => (Res.error e, [])
  | Res.panic => (Res.panic, [])

/-- Function `YumInstaller.InstallKubeadmPackage` (yum.go, lines 187-196):
when building the list panics, no command is run. -/
def InstallKubeadmPackage (run : Executor) (kubernetesVersion : GoString) :
    Res Unit × List Invocation :=
  match kubeadmPackageList kubernetesVersion with
  | Res.ok pkg => YumInstall run pkg
  | Res.error e => (Res.error e, [])
  | Res.panic => (Res.panic, [])

/-- Function `YumInstaller.InstallContainerdPrerequisites` (yum.go, lines 198-205). -/
def InstallContainerdPrerequisites (run : Executor) (_containerdVersion : GoString) :
    Res Unit × List Invocation :=
  match YumInstall run ["libseccomp".toList] with
  | (Res.error err, trace) =>
    (Res.error (GoError.wrap err "unable to install libseccomp package".toList), trace)
  | (Res.ok u, trace) => (Res.ok u, trace)
  | (Res.panic, trace) => (Res.panic, trace)

/-! ## Executors used at concrete inputs -/

/-- A host on which the install succeeds and `rpm -q p` prints `p.x86_64`. -/
def echoHost : Executor := fun _ inv =>
  if inv.name = cmdRpm then
    match inv.args with
    | [_, p] => (p ++ ".x86_64".toList, none)
    | _ => ([], some (GoError.command "usage".toList))
  else ([], none)

/-- A host on which the install ends with the error `yumErr` (`none` for
success) and every query prints `answer`. -/
def fixedHost (yumErr : Option GoError) (answer : GoString) : Executor := fun _ inv =>
  if inv.name = cmdRpm then (answer, none) else ([], yumErr)

/-! ## The acceptance condition in the words of the specification -/

/-- Every entry that does not begin with a dash is queried with success, its
output decodes, and the entry equals one of the four candidates built from the
decoded fields; `hist` holds the invocations made before the entry is reached. -/
def Accepts (run : Executor) : List Invocation → List GoString → Prop
  | _, [] => True
  | hist, pkg :: rest =>
    if pkg.head? = some '-' then Accepts run hist rest
    else
      (∃ out p, run hist (rpmInvocation pkg) = (out, none) ∧
        parseRpmPackageOutput out = Res.ok p ∧
        (pkg = p.name ∨ pkg = p.name ++ "-".toList ++ p.version ∨
          pkg = p.name ++ "-".toList ++ p.version ++ "-".toList ++ p.release ∨
          pkg = p.name ++ "-".toList ++ p.version ++ "-".toList ++ p.release ++ ".".toList
            ++ p.arch)) ∧
      Accepts run (hist ++ [rpmInvocation pkg]) rest

/-- The entry `pkg`, queried after the invocations `hist`, is accepted: the
query succeeds, its output decodes, and the entry equals one of the four
candidates built from the decoded fields. -/
def EntryAccepted (run : Executor) (hist : List Invocation) (pkg : GoString) : Prop :=
  ∃ out p, run hist (rpmInvocation pkg) = (out, none) ∧
    parseRpmPackageOutput out = Res.ok p ∧
    (pkg = p.name ∨ pkg = p.name ++ "-".toList ++ p.version ∨
      pkg = p.name ++ "-".toList ++ p.version ++ "-".toList ++ p.release ∨
      pkg = p.name ++ "-".toList ++ p.version ++ "-".toList ++ p.release ++ ".".toList
        ++ p.arch)

/-- The entry `pkg`, queried after the invocations `hist`, fails with the error
`e`: the query returns `e`; or the query succeeds, its output does not parse
and `e` is the error of the parser; or the output parses, the entry equals none
of the four candidates and `e` is the mismatch error. -/
def EntryFails (run : Executor) (hist : List Invocation) (pkg : GoString) (e : GoError) :
    Prop :=
  (∃ out, run hist (rpmInvocation pkg) = (out, some e)) ∨
  (∃ out, run hist (rpmInvocation pkg) = (out, none) ∧
    parseRpmPackageOutput out = Res.error e) ∨
  (∃ out p, run hist (rpmInvocation pkg) = (out, none) ∧
    parseRpmPackageOutput out = Res.ok p ∧ matchesRequest p pkg = false ∧
    e = mismatchError pkg p)

/-! ## Lemmas on the string primitives -/

theorem lastIndex?_single_none (c : Char) (s : GoString) :
    lastIndex? s [c] = none ↔ c ∉ s := by
  induction s with
  | nil => simp [lastIndex?]
  | cons d ds ih =>
    unfold lastIndex?
    cases h : lastIndex? ds [c] with
    | some i =>
      have : c ∈ ds := by
        by_contra hc
        rw [ih.mpr hc] at h
        cases h
      simp [this]
    | none =>
      have hc : c ∉ ds := ih.mp h
      by_cases hcd : c = d
      · subst hcd
        simp [List.isPrefixOf]
      · simp [List.isPrefixOf, hcd, hc]

theorem lastIndex?_single_append (c : Char) (a b : GoString) (hb : c ∉ b) :
    lastIndex? (a ++ c :: b) [c] = some a.length := by
  induction a with
  | nil =>
    have h := (lastIndex?_single_none c b).mpr hb
    simp [lastIndex?, h, List.isPrefixOf]
  | cons d ds ih =>
    show lastIndex? (d :: (ds ++ c :: b)) [c] = some (ds.length + 1)
    unfold lastIndex?
    rw [ih]

theorem lastIndex?_single_some (c : Char) (s : GoString) (i : Nat)
    (h : lastIndex? s [c] = some i) :
    ∃ a b, s = a ++ c :: b ∧ c ∉ b ∧ a.length = i := by
  induction s generalizing i with
  | nil => simp [lastIndex?] at h
  | cons d ds ih =>
    unfold lastIndex? at h
    cases hds : lastIndex? ds [c] with
    | some j =>
      rw [hds] at h
      simp only [Option.some.injEq] at h
      obtain ⟨a, b, hab, hb, hlen⟩ := ih j hds
      exact ⟨d :: a, b, by simp [hab], hb, by simp [hlen, h]⟩
    | none =>
      rw [hds] at h
      have hc : c ∉ ds := (lastIndex?_single_none c ds).mp hds
      by_cases hcd : c = d
      · subst hcd
        simp [List.isPrefixOf] at h
        exact ⟨[], ds, rfl, hc, by simp [h]⟩
      · simp [List.isPrefixOf, hcd] at h

/-- What one search-and-split of the parser does with the separator `c`: either
`c` is absent and `LastIndex` is negative, or the string splits at the last `c`
and both slices are in range. -/
theorem split_cases (c : Char) (s : GoString) :
    (c ∉ s ∧ LastIndex s [c] < 0) ∨
    ∃ a b, s = a ++ c :: b ∧ c ∉ b ∧ ¬ LastIndex s [c] < 0 ∧
      sliceFrom s (LastIndex s [c] + 1) = some b ∧ sliceTo s (LastIndex s [c]) = some a := by
  cases h : lastIndex? s [c] with
  | none =>
    left
    exact ⟨(lastIndex?_single_none c s).mp h, by simp [LastIndex, h]⟩
  | some i =>
    right
    obtain ⟨a, b, hab, hb, hlen⟩ := lastIndex?_single_some c s i h
    refine ⟨a, b, hab, hb, ?_, ?_, ?_⟩
    · simp [LastIndex, h]
    · subst hab
      subst hlen
      simp only [LastIndex, h, sliceFrom]
      have : (0:Int) ≤ (a.length : Int) + 1 ∧
          (a.length : Int) + 1 ≤ ((a ++ c :: b).length : Int) := by
        constructor
        · omega
        · simp
      rw [if_pos this]
      have h2 : ((a.length : Int) + 1).toNat = a.length + 1 := by omega
      rw [h2]
      simp
    · subst hab
      subst hlen
      simp only [LastIndex, h, sliceTo]
      have : (0:Int) ≤ (a.length : Int) ∧
          (a.length : Int) ≤ ((a ++ c :: b).length : Int) := by
        constructor
        · omega
        · simp
          omega
      rw [if_pos this]
      simp

/-- Splitting at a separator that does not occur to its right: the parser's
search finds it and both slices are in range. -/
theorem split_append (c : Char) (a b : GoString) (hb : c ∉ b) :
    ¬ LastIndex (a ++ c :: b) [c] < 0 ∧
    sliceFrom (a ++ c :: b) (LastIndex (a ++ c :: b) [c] + 1) = some b ∧
    sliceTo (a ++ c :: b) (LastIndex (a ++ c :: b) [c]) = some a := by
  obtain ⟨a', b', hab, _, hneg, hfrom, hto⟩ :=
    (split_cases c (a ++ c :: b)).resolve_left (fun h => h.1 (by simp))
  have hidx : LastIndex (a ++ c :: b) [c] = (a.length : Int) := by
    simp [LastIndex, lastIndex?_single_append c a b hb]
  refine ⟨hneg, ?_, ?_⟩
  · rw [hidx]
    have : (0:Int) ≤ (a.length : Int) + 1 ∧
        (a.length : Int) + 1 ≤ ((a ++ c :: b).length : Int) := by
      constructor
      · omega
      · simp
    have h2 : ((a.length : Int) + 1).toNat = a.length + 1 := by omega
    simp only [sliceFrom, if_pos this, h2]
    simp
  · rw [hidx]
    have : (0:Int) ≤ (a.length : Int) ∧
        (a.length : Int) ≤ ((a ++ c :: b).length : Int) := by
      constructor
      · omega
      · simp
        omega
    simp only [sliceTo, if_pos this]
    simp

theorem dotS_eq : dotS = ['.'] := rfl

theorem dashS_eq : dashS = ['-'] := rfl

/-- The four ways `parseRpmPackageOutput` can end, with the decomposition of the
input that leads to each. -/
theorem parse_cases (s : GoString) :
    ('.' ∉ s ∧ parseRpmPackageOutput s = Res.error errorUnableToParseRPMOutput) ∨
    (∃ a arch, s = a ++ '.' :: arch ∧ '.' ∉ arch ∧ '-' ∉ a ∧
      parseRpmPackageOutput s = Res.error errorUnableToParseRPMOutput) ∨
    (∃ a rel arch, s = (a ++ '-' :: rel) ++ '.' :: arch ∧ '.' ∉ arch ∧ '-' ∉ rel ∧ '-' ∉ a ∧
      parseRpmPackageOutput s = Res.error errorUnableToParseRPMOutput) ∨
    (∃ name ver rel arch, s = ((name ++ '-' :: ver) ++ '-' :: rel) ++ '.' :: arch ∧
      '.' ∉ arch ∧ '-' ∉ rel ∧ '-' ∉ ver ∧
      parseRpmPackageOutput s = Res.ok ⟨name, ver, rel, arch⟩) := by
  rcases split_cases '.' s with ⟨hno, hneg⟩ | ⟨s1, arch, hs, harch, hneg, hfrom, hto⟩
  · left
    exact ⟨hno, by simp [parseRpmPackageOutput, dotS_eq, hneg]⟩
  right
  rcases split_cases '-' s1 with ⟨hno1, hneg1⟩ | ⟨s2, rel, hs1, hrel, hneg1, hfrom1, hto1⟩
  · left
    refine ⟨s1, arch, hs, harch, hno1, ?_⟩
    simp [parseRpmPackageOutput, dotS_eq, dashS_eq, hneg, hfrom, hto, hneg1]
  right
  rcases split_cases '-' s2 with ⟨hno2, hneg2⟩ | ⟨name, ver, hs2, hver, hneg2, hfrom2, hto2⟩
  · left
    refine ⟨s2, rel, arch, by rw [hs, hs1], harch, hrel, hno2, ?_⟩
    simp [parseRpmPackageOutput, dotS_eq, dashS_eq, hneg, hfrom, hto, hneg1, hfrom1, hto1, hneg2]
  right
  refine ⟨name, ver, rel, arch, by rw [hs, hs1, hs2], harch, hrel, hver, ?_⟩
  simp [parseRpmPackageOutput, dotS_eq, dashS_eq, hneg, hfrom, hto, hneg1, hfrom1, hto1, hneg2,
    hfrom2, hto2]

/-- Parsing an encoded identity whose version and release have no dash and
whose architecture has no dot gives back the four fields. -/
theorem parse_encoded (name ver rel arch : GoString)
    (hver : '-' ∉ ver) (hrel : '-' ∉ rel) (harch : '.' ∉ arch) :
    parseRpmPackageOutput (((name ++ '-' :: ver) ++ '-' :: rel) ++ '.' :: arch)
      = Res.ok ⟨name, ver, rel, arch⟩ := by
  obtain ⟨h0, h1, h2⟩ := split_append '.' ((name ++ '-' :: ver) ++ '-' :: rel) arch harch
  obtain ⟨h3, h4, h5⟩ := split_append '-' (name ++ '-' :: ver) rel hrel
  obtain ⟨h6, h7, h8⟩ := split_append '-' name ver hver
  simp only [parseRpmPackageOutput, dotS_eq, dashS_eq, h0, h1, h2, h3, h4, h5, h6, h7, h8,
    if_false]

/-! ## Lemmas on the verification loop -/

theorem sliceTo_one_nil : sliceTo [] 1 = none := by decide

theorem sliceTo_one_cons (c : Char) (cs : GoString) : sliceTo (c :: cs) 1 = some [c] := by
  have h : (0:Int) ≤ 1 ∧ (1:Int) ≤ ((c :: cs).length : Int) := by
    constructor
    · omega
    · simp
  simp only [sliceTo, if_pos h]
  rfl

theorem verifyPackages_nil_entry (run : Executor) (hist : List Invocation)
    (rest : List GoString) :
    verifyPackages run hist ([] :: rest) = (Res.panic, []) := by
  simp [verifyPackages, sliceTo_one_nil]

theorem verifyPackages_flag (run : Executor) (hist : List Invocation) (cs : GoString)
    (rest : List GoString) :
    verifyPackages run hist (('-' :: cs) :: rest) = verifyPackages run hist rest := by
  rw [verifyPackages]
  simp [sliceTo_one_cons]

theorem verifyPackages_entry (run : Executor) (hist : List Invocation) (c : Char)
    (cs : GoString) (rest : List GoString) (hc : c ≠ '-') :
    verifyPackages run hist ((c :: cs) :: rest) =
      match rpmQuery run hist (c :: cs) with
      | Res.error err => (Res.error err, [rpmInvocation (c :: cs)])
      | Res.panic => (Res.panic, [rpmInvocation (c :: cs)])
      | Res.ok p =>
        if matchesRequest p (c :: cs) then
          ((verifyPackages run (hist ++ [rpmInvocation (c :: cs)]) rest).1,
            rpmInvocation (c :: cs) ::
              (verifyPackages run (hist ++ [rpmInvocation (c :: cs)]) rest).2)
        else (Res.error (mismatchError (c :: cs) p), [rpmInvocation (c :: cs)]) := by
  rw [verifyPackages]
  simp [sliceTo_one_cons, hc]

/-- An entry that is not empty and does not begin with a dash. -/
theorem entry_cases (pkg : GoString) :
    pkg = [] ∨ (∃ cs, pkg = '-' :: cs) ∨ ∃ c cs, pkg = c :: cs ∧ c ≠ '-' := by
  cases pkg with
  | nil => exact Or.inl rfl
  | cons c cs =>
    by_cases h : c = '-'
    · exact Or.inr (Or.inl ⟨cs, by rw [h]⟩)
    · exact Or.inr (Or.inr ⟨c, cs, rfl, h⟩)

/-- Every invocation the loop makes is the query of a listed entry that does
not begin with a dash. -/
theorem verifyPackages_trace (run : Executor) (packages : List GoString) :
    ∀ hist, ∀ inv ∈ (verifyPackages run hist packages).2,
      ∃ p ∈ packages, p.head? ≠ some '-' ∧ inv = rpmInvocation p := by
  induction packages with
  | nil => intro hist inv h; simp [verifyPackages] at h
  | cons pkg rest ih =>
    intro hist inv h
    rcases entry_cases pkg with rfl | ⟨cs, rfl⟩ | ⟨c, cs, rfl, hc⟩
    · simp [verifyPackages_nil_entry] at h
    · rw [verifyPackages_flag] at h
      obtain ⟨p, hp, hf, hi⟩ := ih hist inv h
      exact ⟨p, List.mem_cons_of_mem _ hp, hf, hi⟩
    · rw [verifyPackages_entry run hist c cs rest hc] at h
      have hhead : (c :: cs).head? ≠ some '-' := by simp [hc]
      cases hq : rpmQuery run hist (c :: cs) with
      | error err =>
        rw [hq] at h
        simp at h
        exact ⟨c :: cs, List.mem_cons_self _ _, hhead, h⟩
      | panic =>
        rw [hq] at h
        simp at h
        exact ⟨c :: cs, List.mem_cons_self _ _, hhead, h⟩
      | ok p =>
        rw [hq] at h
        by_cases hm : matchesRequest p (c :: cs) = true
        · simp only [hm, if_true, List.mem_cons] at h
          rcases h with h | h
          · exact ⟨c :: cs, List.mem_cons_self _ _, hhead, h⟩
          · obtain ⟨q, hq1, hf, hi⟩ := ih _ inv h
            exact ⟨q, List.mem_cons_of_mem _ hq1, hf, hi⟩
        · simp [hm] at h
          exact ⟨c :: cs, List.mem_cons_self _ _, hhead, h⟩

/-- Entries that begin with a dash can be dropped from the list without
changing what the loop does. -/
theorem verifyPackages_filter (run : Executor) (packages : List GoString) :
    ∀ hist, verifyPackages run hist packages =
      verifyPackages run hist (packages.filter fun p => decide (p.head? ≠ some '-')) := by
  induction packages with
  | nil => intro hist; rfl
  | cons pkg rest ih =>
    intro hist
    rcases entry_cases pkg with rfl | ⟨cs, rfl⟩ | ⟨c, cs, rfl, hc⟩
    · simp [verifyPackages_nil_entry]
    · rw [verifyPackages_flag]
      simp [ih hist]
    · have hkeep : ((c :: cs) :: rest).filter (fun p => decide (p.head? ≠ some '-')) =
          (c :: cs) :: rest.filter (fun p => decide (p.head? ≠ some '-')) := by
        simp [hc]
      rw [hkeep, verifyPackages_entry run hist c cs rest hc,
        verifyPackages_entry run hist c cs _ hc, ← ih]

/-- When the entries `pre` all pass, the loop goes on with the rest of the list
after the invocations made for `pre`. -/
theorem verifyPackages_append (run : Executor) (pre rest : List GoString) :
    ∀ hist trace, verifyPackages run hist pre = (Res.ok (), trace) →
      verifyPackages run hist (pre ++ rest) =
        ((verifyPackages run (hist ++ trace) rest).1,
          trace ++ (verifyPackages run (hist ++ trace) rest).2) := by
  induction pre with
  | nil =>
    intro hist trace h
    simp [verifyPackages] at h
    subst h
    simp
  | cons pkg pre ih =>
    intro hist trace h
    rcases entry_cases pkg with rfl | ⟨cs, rfl⟩ | ⟨c, cs, rfl, hc⟩
    · simp [verifyPackages_nil_entry] at h
    · rw [verifyPackages_flag] at h
      rw [List.cons_append, verifyPackages_flag]
      exact ih hist trace h
    · rw [verifyPackages_entry run hist c cs pre hc] at h
      rw [List.cons_append, verifyPackages_entry run hist c cs _ hc]
      cases hq : rpmQuery run hist (c :: cs) with
      | error err => rw [hq] at h; simp at h
      | panic => rw [hq] at h; simp at h
      | ok p =>
        rw [hq] at h
        by_cases hm : matchesRequest p (c :: cs) = true
        · simp only [hm, if_true, Prod.mk.injEq] at h ⊢
          obtain ⟨h1, h2⟩ := h
          have h3 := ih (hist ++ [rpmInvocation (c :: cs)])
            (verifyPackages run (hist ++ [rpmInvocation (c :: cs)]) pre).2
            (by rw [← h1])
          rw [h3, ← h2]
          simp
        · simp [hm] at h

theorem matchesRequest_iff (p : RpmPackage) (pkg : GoString) :
    matchesRequest p pkg = true ↔
      (pkg = p.name ∨ pkg = p.name ++ "-".toList ++ p.version ∨
        pkg = p.name ++ "-".toList ++ p.version ++ "-".toList ++ p.release ∨
        pkg = p.name ++ "-".toList ++ p.version ++ "-".toList ++ p.release ++ ".".toList
          ++ p.arch) := by
  simp only [matchesRequest, Bool.or_eq_true, decide_eq_true_eq, or_assoc]
  constructor <;> (intro h; rcases h with h | h | h | h) <;>
    first
      | exact Or.inl h.symm
      | exact Or.inr (Or.inl h.symm)
      | exact Or.inr (Or.inr (Or.inl h.symm))
      | exact Or.inr (Or.inr (Or.inr h.symm))

theorem verifyPackages_skip (run : Executor) (hist : List Invocation) (pkg : GoString)
    (rest : List GoString) (hflag : pkg.head? = some '-') :
    verifyPackages run hist (pkg :: rest) = verifyPackages run hist rest := by
  rcases entry_cases pkg with rfl | ⟨cs, rfl⟩ | ⟨c, cs, rfl, hc⟩
  · simp at hflag
  · exact verifyPackages_flag run hist cs rest
  · simp at hflag
    exact absurd hflag hc

theorem verifyPackages_query_error (run : Executor) (hist : List Invocation) (pkg : GoString)
    (rest : List GoString) (out : GoString) (err : GoError)
    (hne : pkg ≠ []) (hflag : pkg.head? ≠ some '-')
    (hq : run hist (rpmInvocation pkg) = (out, some err)) :
    verifyPackages run hist (pkg :: rest) = (Res.error err, [rpmInvocation pkg]) := by
  rcases entry_cases pkg with rfl | ⟨cs, rfl⟩ | ⟨c, cs, rfl, hc⟩
  · exact absurd rfl hne
  · simp at hflag
  · rw [verifyPackages_entry run hist c cs rest hc]
    simp [rpmQuery, hq]

theorem verifyPackages_parse_error (run : Executor) (hist : List Invocation) (pkg : GoString)
    (rest : List GoString) (out : GoString) (err : GoError)
    (hne : pkg ≠ []) (hflag : pkg.head? ≠ some '-')
    (hq : run hist (rpmInvocation pkg) = (out, none))
    (hp : parseRpmPackageOutput out = Res.error err) :
    verifyPackages run hist (pkg :: rest) = (Res.error err, [rpmInvocation pkg]) := by
  rcases entry_cases pkg with rfl | ⟨cs, rfl⟩ | ⟨c, cs, rfl, hc⟩
  · exact absurd rfl hne
  · simp at hflag
  · rw [verifyPackages_entry run hist c cs rest hc]
    simp [rpmQuery, hq, hp]

theorem verifyPackages_pass (run : Executor) (hist : List Invocation) (pkg : GoString)
    (rest : List GoString) (out : GoString) (p : RpmPackage)
    (hne : pkg ≠ []) (hflag : pkg.head? ≠ some '-')
    (hq : run hist (rpmInvocation pkg) = (out, none))
    (hp : parseRpmPackageOutput out = Res.ok p)
    (hm : matchesRequest p pkg = true) :
    verifyPackages run hist (pkg :: rest) =
      ((verifyPackages run (hist ++ [rpmInvocation pkg]) rest).1,
        rpmInvocation pkg :: (verifyPackages run (hist ++ [rpmInvocation pkg]) rest).2) := by
  rcases entry_cases pkg with rfl | ⟨cs, rfl⟩ | ⟨c, cs, rfl, hc⟩
  · exact absurd rfl hne
  · simp at hflag
  · rw [verifyPackages_entry run hist c cs rest hc]
    simp [rpmQuery, hq, hp, hm]

theorem verifyPackages_mismatch (run : Executor) (hist : List Invocation) (pkg : GoString)
    (rest : List GoString) (out : GoString) (p : RpmPackage)
    (hne : pkg ≠ []) (hflag : pkg.head? ≠ some '-')
    (hq : run hist (rpmInvocation pkg) = (out, none))
    (hp : parseRpmPackageOutput out = Res.ok p)
    (hm : matchesRequest p pkg = false) :
    verifyPackages run hist (pkg :: rest) =
      (Res.error (mismatchError pkg p), [rpmInvocation pkg]) := by
  rcases entry_cases pkg with rfl | ⟨cs, rfl⟩ | ⟨c, cs, rfl, hc⟩
  · exact absurd rfl hne
  · simp at hflag
  · rw [verifyPackages_entry run hist c cs rest hc]
    simp [rpmQuery, hq, hp, hm]

/-- After a successful install, `YumInstall` is the install invocation followed
by the verification loop. -/
theorem YumInstall_of_install_ok (run : Executor) (packages : List GoString)
    (h : (run [] (yumInvocation packages)).2 = none) :
    YumInstall run packages =
      ((verifyPackages run [yumInvocation packages] packages).1,
        yumInvocation packages :: (verifyPackages run [yumInvocation packages] packages).2) := by
  unfold YumInstall
  cases hr : run [] (yumInvocation packages) with
  | mk out e =>
    rw [hr] at h
    simp only at h
    subst h
    rfl

theorem YumInstall_of_install_error (run : Executor) (packages : List GoString)
    (err : GoError) (h : (run [] (yumInvocation packages)).2 = some err) :
    YumInstall run packages = (Res.error err, [yumInvocation packages]) := by
  unfold YumInstall
  cases hr : run [] (yumInvocation packages) with
  | mk out e =>
    rw [hr] at h
    simp only at h
    subst h
    rfl

theorem compareSegment_cases (v o : Nat) :
    (v < o ∧ compareSegment v o = -1) ∨ (v = o ∧ compareSegment v o = 0) ∨
      (o < v ∧ compareSegment v o = 1) := by
  unfold compareSegment
  rcases Nat.lt_trichotomy v o with h | h | h
  · left
    simp [h]
  · right; left
    simp [h]
  · right; right
    have h2 : ¬ v < o := by omega
    simp [h, h2]

/-- On a list without empty entries the verification loop ends with success
exactly when the acceptance condition of the specification holds. -/
theorem verifyPackages_ok_iff (run : Executor) (packages : List GoString)
    (hne : ∀ p ∈ packages, p ≠ []) :
    ∀ hist, (verifyPackages run hist packages).1 = Res.ok () ↔ Accepts run hist packages := by
  induction packages with
  | nil => intro hist; simp [verifyPackages, Accepts]
  | cons pkg rest ih =>
    intro hist
    have ih2 := ih (fun p hp => hne p (List.mem_cons_of_mem _ hp))
    rcases entry_cases pkg with rfl | ⟨cs, rfl⟩ | ⟨c, cs, rfl, hc⟩
    · exact absurd rfl (hne [] (List.mem_cons_self _ _))
    · rw [verifyPackages_flag]
      simp only [Accepts, List.head?_cons, if_true]
      exact ih2 hist
    · have hhead : ¬ (c :: cs).head? = some '-' := by simp [hc]
      rw [verifyPackages_entry run hist c cs rest hc]
      simp only [Accepts, if_neg hhead]
      unfold rpmQuery
      rcases hr : run hist (rpmInvocation (c :: cs)) with ⟨out, _ | err⟩
      · simp only
        cases hp : parseRpmPackageOutput out with
        | error e =>
          simp only [reduceCtorEq, false_iff]
          rintro ⟨⟨out', p', ho, hp', _⟩, _⟩
          simp only [Prod.mk.injEq, and_true] at ho
          subst ho
          rw [hp] at hp'
          cases hp'
        | panic =>
          simp only [reduceCtorEq, false_iff]
          rintro ⟨⟨out', p', ho, hp', _⟩, _⟩
          simp only [Prod.mk.injEq, and_true] at ho
          subst ho
          rw [hp] at hp'
          cases hp'
        | ok p =>
          by_cases hm : matchesRequest p (c :: cs) = true
          · simp only [hm, if_true, ih2]
            constructor
            · intro h
              exact ⟨⟨out, p, rfl, hp, (matchesRequest_iff p _).mp hm⟩, h⟩
            · intro h
              exact h.2
          · simp only [hm]
            constructor
            · intro h
              simp at h
            · rintro ⟨⟨out', p', ho, hp', hm'⟩, _⟩
              simp only [Prod.mk.injEq, and_true] at ho
              subst ho
              rw [hp] at hp'
              cases hp'
              exact absurd ((matchesRequest_iff p _).mpr hm') hm
      · simp

/-- The granular match of the specification: against the decoded identity
(kubeadm, 1.18.3, 0, x86_64) the request `kubeadm-1.18.3` is accepted and the
request `kubeadm-1.18.3-1` is not. -/
theorem matchesRequest_kubeadm :
    matchesRequest ⟨"kubeadm".toList, "1.18.3".toList, "0".toList, "x86_64".toList⟩
      "kubeadm-1.18.3".toList = true ∧
    matchesRequest ⟨"kubeadm".toList, "1.18.3".toList, "0".toList, "x86_64".toList⟩
      "kubeadm-1.18.3-1".toList = false := by
  decide

theorem split_unique (c : Char) (a b a' b' : GoString) (h : a ++ c :: b = a' ++ c :: b')
    (hb : c ∉ b) (hb' : c ∉ b') : a = a' ∧ b = b' := by
  have h1 := lastIndex?_single_append c a b hb
  have h2 := lastIndex?_single_append c a' b' hb'
  rw [h, h2] at h1
  have hlen : a'.length = a.length := by simpa using h1
  have := List.append_inj h hlen.symm
  exact ⟨this.1, by simpa using this.2⟩

/-- When the entries before `pkg` all pass, `YumInstall` reaches `pkg` after the
install invocation and the queries made for them. -/
theorem YumInstall_reaches (run : Executor) (pre rest : List GoString) (pkg : GoString)
    (trace : List Invocation)
    (hinst : (run [] (yumInvocation (pre ++ pkg :: rest))).2 = none)
    (hpre : verifyPackages run [yumInvocation (pre ++ pkg :: rest)] pre = (Res.ok (), trace)) :
    YumInstall run (pre ++ pkg :: rest) =
      ((verifyPackages run (yumInvocation (pre ++ pkg :: rest) :: trace) (pkg :: rest)).1,
        yumInvocation (pre ++ pkg :: rest) :: (trace ++
          (verifyPackages run (yumInvocation (pre ++ pkg :: rest) :: trace) (pkg :: rest)).2)) := by
  rw [YumInstall_of_install_ok run _ hinst,
    verifyPackages_append run pre (pkg :: rest) _ trace hpre]
  rfl

/-- Every command the verification loop runs is the query tool. -/
theorem verifyPackages_trace_name (run : Executor) (hist : List Invocation)
    (packages : List GoString) :
    ∀ inv ∈ (verifyPackages run hist packages).2, inv.name = cmdRpm := by
  intro inv h
  obtain ⟨p, _, _, hinv⟩ := verifyPackages_trace run packages hist inv h
  rw [hinv]
  rfl

/-- The install invocation comes first and is the only run of the package
manager that `YumInstall` makes. -/
theorem YumInstall_trace (run : Executor) (packages : List GoString) :
    (YumInstall run packages).2.head? = some (yumInvocation packages) ∧
    (YumInstall run packages).2.filter (fun inv => decide (inv.name = cmdYum))
      = [yumInvocation packages] := by
  have hne : cmdRpm ≠ cmdYum := by decide
  cases he : (run [] (yumInvocation packages)).2 with
  | some err =>
    rw [YumInstall_of_install_error run packages err he]
    simp [yumInvocation]
  | none =>
    rw [YumInstall_of_install_ok run packages he]
    refine ⟨rfl, ?_⟩
    have hnil : (verifyPackages run [yumInvocation packages] packages).2.filter
        (fun inv => decide (inv.name = cmdYum)) = [] := by
      rw [List.filter_eq_nil_iff]
      intro inv hinv
      have := verifyPackages_trace_name run _ packages inv hinv
      simp [this, hne]
    rw [List.filter_cons_of_pos (by simp [yumInvocation]), hnil]

/-! ## Further lemmas on the parser -/

/-- A successful parse determines the input: it is the four fields joined by
the separators, the last three being free of the separator to their left. -/
theorem parse_ok_decomp (s : GoString) (p : RpmPackage)
    (h : parseRpmPackageOutput s = Res.ok p) :
    s = ((p.name ++ '-' :: p.version) ++ '-' :: p.release) ++ '.' :: p.arch ∧
      '.' ∉ p.arch ∧ '-' ∉ p.release ∧ '-' ∉ p.version := by
  rcases parse_cases s with ⟨_, herr⟩ | ⟨_, _, _, _, _, herr⟩ |
    ⟨_, _, _, _, _, _, _, herr⟩ | ⟨name, ver, rel, arch, hs, harch, hrel, hver, hok⟩
  · rw [herr] at h; cases h
  · rw [herr] at h; cases h
  · rw [herr] at h; cases h
  · rw [hok] at h
    cases h
    exact ⟨hs, harch, hrel, hver⟩

theorem parse_never_panics (s : GoString) : parseRpmPackageOutput s ≠ Res.panic := by
  intro h
  rcases parse_cases s with ⟨_, herr⟩ | ⟨_, _, _, _, _, herr⟩ |
    ⟨_, _, _, _, _, _, _, herr⟩ | ⟨_, _, _, _, _, _, _, _, hok⟩
  · rw [herr] at h; cases h
  · rw [herr] at h; cases h
  · rw [herr] at h; cases h
  · rw [hok] at h; cases h

/-! ## Further lemmas on the verification loop -/

theorem rpmQuery_never_panics (run : Executor) (hist : List Invocation) (pkg : GoString) :
    rpmQuery run hist pkg ≠ Res.panic := by
  unfold rpmQuery
  rcases run hist (rpmInvocation pkg) with ⟨out, _ | err⟩
  · exact parse_never_panics out
  · simp

/-- On a list without empty entries the verification loop does not panic. -/
theorem verifyPackages_never_panics (run : Executor) (packages : List GoString)
    (hne : ∀ p ∈ packages, p ≠ []) :
    ∀ hist, (verifyPackages run hist packages).1 ≠ Res.panic := by
  induction packages with
  | nil => intro hist; simp [verifyPackages]
  | cons pkg rest ih =>
    intro hist
    have ih2 := ih (fun p hp => hne p (List.mem_cons_of_mem _ hp))
    rcases entry_cases pkg with rfl | ⟨cs, rfl⟩ | ⟨c, cs, rfl, hc⟩
    · exact absurd rfl (hne [] (List.mem_cons_self _ _))
    · rw [verifyPackages_flag]
      exact ih2 hist
    · rw [verifyPackages_entry run hist c cs rest hc]
      cases hq : rpmQuery run hist (c :: cs) with
      | error err => simp
      | panic => exact absurd hq (rpmQuery_never_panics run hist _)
      | ok p =>
        by_cases hm : matchesRequest p (c :: cs) = true
        · simp only [hm, if_true]
          exact ih2 _
        · simp [hm]

theorem YumInstall_never_panics (run : Executor) (packages : List GoString)
    (hne : ∀ p ∈ packages, p ≠ []) :
    (YumInstall run packages).1 ≠ Res.panic := by
  cases he : (run [] (yumInvocation packages)).2 with
  | some err =>
    rw [YumInstall_of_install_error run packages err he]
    simp
  | none =>
    rw [YumInstall_of_install_ok run packages he]
    exact verifyPackages_never_panics run packages hne _

theorem res_unit_cases (r : Res Unit) (h : r ≠ Res.panic) :
    r = Res.ok () ∨ ∃ e, r = Res.error e := by
  cases r with
  | ok u => exact Or.inl rfl
  | error e => exact Or.inr ⟨e, rfl⟩
  | panic => exact absurd rfl h

/-- On a list of non-empty entries none of which is a flag, the loop queries
the entries in order: either all pass and all are queried, or the queries stop
at the first entry that fails and the loop returns the error of that entry. -/
theorem verifyPackages_nonflag_sequential (run : Executor) (packages : List GoString)
    (hL : ∀ p ∈ packages, p ≠ [] ∧ p.head? ≠ some '-') :
    ∀ hist,
      (verifyPackages run hist packages = (Res.ok (), packages.map rpmInvocation) ∧
        Accepts run hist packages) ∨
      ∃ pre pkg rest e, packages = pre ++ pkg :: rest ∧
        verifyPackages run hist packages = (Res.error e, (pre ++ [pkg]).map rpmInvocation) ∧
        Accepts run hist pre ∧ EntryFails run (hist ++ pre.map rpmInvocation) pkg e := by
  induction packages with
  | nil =>
    intro hist
    left
    simp [verifyPackages, Accepts]
  | cons pkg rest ih =>
    intro hist
    have ih2 := ih (fun p hp => hL p (List.mem_cons_of_mem _ hp))
    obtain ⟨hne, hflag⟩ := hL pkg (List.mem_cons_self _ _)
    rcases hr : run hist (rpmInvocation pkg) with ⟨out, _ | err⟩
    · cases hp : parseRpmPackageOutput out with
      | error e =>
        right
        refine ⟨[], pkg, rest, e, rfl, ?_, by simp [Accepts], ?_⟩
        · rw [verifyPackages_parse_error run hist pkg rest out e hne hflag hr hp]
          rfl
        · right; left
          exact ⟨out, by simpa using hr, hp⟩
      | panic => exact absurd hp (parse_never_panics out)
      | ok p =>
        by_cases hm : matchesRequest p pkg = true
        · rw [verifyPackages_pass run hist pkg rest out p hne hflag hr hp hm]
          have hacc : ∃ out p, run hist (rpmInvocation pkg) = (out, none) ∧
              parseRpmPackageOutput out = Res.ok p ∧
              (pkg = p.name ∨ pkg = p.name ++ "-".toList ++ p.version ∨
                pkg = p.name ++ "-".toList ++ p.version ++ "-".toList ++ p.release ∨
                pkg = p.name ++ "-".toList ++ p.version ++ "-".toList ++ p.release
                  ++ ".".toList ++ p.arch) :=
            ⟨out, p, hr, hp, (matchesRequest_iff p pkg).mp hm⟩
          rcases ih2 (hist ++ [rpmInvocation pkg]) with ⟨hv, ha⟩ |
            ⟨pre, q, rest', e, hsplit, hv, ha, hf⟩
          · left
            refine ⟨by rw [hv]; rfl, ?_⟩
            simp only [Accepts, if_neg hflag]
            exact ⟨hacc, ha⟩
          · right
            refine ⟨pkg :: pre, q, rest', e, by rw [hsplit]; rfl, by rw [hv]; rfl, ?_, ?_⟩
            · simp only [Accepts, if_neg hflag]
              exact ⟨hacc, ha⟩
            · simpa using hf
        · have hm2 : matchesRequest p pkg = false := by simpa using hm
          right
          refine ⟨[], pkg, rest, mismatchError pkg p, rfl, ?_, by simp [Accepts], ?_⟩
          · rw [verifyPackages_mismatch run hist pkg rest out p hne hflag hr hp hm2]
            rfl
          · right; right
            exact ⟨out, p, by simpa using hr, hp, hm2, rfl⟩
    · right
      refine ⟨[], pkg, rest, err, rfl, ?_, by simp [Accepts], ?_⟩
      · rw [verifyPackages_query_error run hist pkg rest out err hne hflag hr]
        rfl
      · left
        exact ⟨out, by simpa using hr⟩

/-- Sequential verification on lists without empty entries: after a successful
install the queries of `YumInstall` are those of the entries that do not begin
with a dash, in list order, either all of them (and the result is success) or
up to and including the first one that fails (and the result is its error). -/
theorem YumInstall_sequential (run : Executor) (packages : List GoString)
    (hne : ∀ p ∈ packages, p ≠ [])
    (hinst : (run [] (yumInvocation packages)).2 = none) :
    YumInstall run packages = (Res.ok (), yumInvocation packages ::
        (packages.filter fun p => decide (p.head? ≠ some '-')).map rpmInvocation) ∨
      ∃ pre pkg rest e,
        (packages.filter fun p => decide (p.head? ≠ some '-')) = pre ++ pkg :: rest ∧
        YumInstall run packages =
          (Res.error e, yumInvocation packages :: (pre ++ [pkg]).map rpmInvocation) ∧
        Accepts run [yumInvocation packages] pre ∧
        EntryFails run (yumInvocation packages :: pre.map rpmInvocation) pkg e := by
  have hL : ∀ p ∈ (packages.filter fun p => decide (p.head? ≠ some '-')),
      p ≠ [] ∧ p.head? ≠ some '-' := by
    intro p hp
    rw [List.mem_filter] at hp
    exact ⟨hne p hp.1, by simpa using hp.2⟩
  rw [YumInstall_of_install_ok run packages hinst, verifyPackages_filter run packages]
  rcases verifyPackages_nonflag_sequential run _ hL [yumInvocation packages] with
    ⟨hv, _⟩ | ⟨pre, pkg, rest, e, hsplit, hv, ha, hf⟩
  · left
    rw [hv]
  · right
    exact ⟨pre, pkg, rest, e, hsplit, by rw [hv], ha, by simpa using hf⟩
/-! ## Lemmas on the semantic-version library -/

/-- A version is at or above a constraint version exactly when it is so in the
order by major, then minor, then patch. -/
theorem Compare_nonneg_iff (v : Version) (o : Release) :
    0 ≤ v.Compare o ↔
      (o.major < v.major ∨ (v.major = o.major ∧
        (o.minor < v.minor ∨ (v.minor = o.minor ∧ o.patch ≤ v.patch)))) := by
  unfold Version.Compare
  rcases compareSegment_cases v.major o.major with ⟨h, e⟩ | ⟨h, e⟩ | ⟨h, e⟩ <;>
  rcases compareSegment_cases v.minor o.minor with ⟨h1, e1⟩ | ⟨h1, e1⟩ | ⟨h1, e1⟩ <;>
  rcases compareSegment_cases v.patch o.patch with ⟨h2, e2⟩ | ⟨h2, e2⟩ | ⟨h2, e2⟩ <;>
  simp only [e, e1, e2] <;> simp <;> omega

/-- On a version without pre-release the constraint of line 220 is satisfied
exactly from 1.12.7 upwards: the wildcard comparison `<1.13.x` accepts every
version whose major is at most 1 and whose minor is at most 13, so the first
alternative covers 1.12.7 to 1.13.x and the second everything from 1.13.5. -/
theorem cniConstraint_check_release (ver : Version) (hpre : ver.pre = []) :
    cniConstraint.Check (some ver) =
      Res.ok (decide (1 < ver.major ∨ (ver.major = 1 ∧
        (12 < ver.minor ∨ (ver.minor = 12 ∧ 7 ≤ ver.patch))))) := by
  have e1 : constraintGreaterThanEqual ver ⟨Op.greaterThanEqual, ⟨1, 12, 7⟩, false, false, false⟩
      = decide (1 < ver.major ∨ (ver.major = 1 ∧
        (12 < ver.minor ∨ (ver.minor = 12 ∧ 7 ≤ ver.patch)))) := by
    simp only [constraintGreaterThanEqual, hpre, ne_eq, not_true_eq_false, if_false,
      Compare_nonneg_iff]
  have e3 : constraintGreaterThanEqual ver ⟨Op.greaterThanEqual, ⟨1, 13, 5⟩, false, false, false⟩
      = decide (1 < ver.major ∨ (ver.major = 1 ∧
        (13 < ver.minor ∨ (ver.minor = 13 ∧ 5 ≤ ver.patch)))) := by
    simp only [constraintGreaterThanEqual, hpre, ne_eq, not_true_eq_false, if_false,
      Compare_nonneg_iff]
  have e2 : constraintLessThan ver ⟨Op.lessThan, ⟨1, 13, 0⟩, false, true, true⟩
      = decide (ver.major ≤ 1 ∧ ver.minor ≤ 13) := by
    simp only [constraintLessThan, hpre, ne_eq, not_true_eq_false, if_false, Bool.not_true,
      Bool.false_eq_true, Bool.not_false, Bool.and_true, decide_eq_true_eq]
    by_cases h1 : ver.major > 1
    · have : ¬ (ver.major ≤ 1 ∧ ver.minor ≤ 13) := by omega
      simp [h1, this]
    · by_cases h2 : ver.minor > 13
      · have : ¬ (ver.major ≤ 1 ∧ ver.minor ≤ 13) := by omega
        simp [h1, h2, this]
      · have : ver.major ≤ 1 ∧ ver.minor ≤ 13 := by omega
        simp [h1, h2, this]
  simp only [cniConstraint, Constraints.Check, checkGroup, Constraint.check, e1, e2, e3]
  by_cases p1 : (1 < ver.major ∨ (ver.major = 1 ∧
        (12 < ver.minor ∨ (ver.minor = 12 ∧ 7 ≤ ver.patch))))
  · by_cases p2 : (ver.major ≤ 1 ∧ ver.minor ≤ 13)
    · simp [p1, p2]
    · have p3 : (1 < ver.major ∨ (ver.major = 1 ∧
        (13 < ver.minor ∨ (ver.minor = 13 ∧ 5 ≤ ver.patch)))) := by omega
      simp [p1, p2, p3]
  · have p3 : ¬ (1 < ver.major ∨ (ver.major = 1 ∧
        (13 < ver.minor ∨ (ver.minor = 13 ∧ 5 ≤ ver.patch)))) := by omega
    simp [p1, p3]

/-- A version with a pre-release satisfies no comparison of the constraint. -/
theorem cniConstraint_check_prerelease (ver : Version) (hpre : ver.pre ≠ []) :
    cniConstraint.Check (some ver) = Res.ok false := by
  simp [cniConstraint, Constraints.Check, checkGroup, Constraint.check,
    constraintGreaterThanEqual, hpre]

/-- On the nil version the check panics. -/
theorem cniConstraint_check_nil : cniConstraint.Check none = Res.panic := rfl

theorem mapYumPackageVersion_kubeadm (v : GoString) :
    mapYumPackageVersion kubeadm v = Res.ok ("kubeadm-".toList ++ v ++ "-0".toList) := by
  simp [mapYumPackageVersion]

theorem mapYumPackageVersion_kubectl (v : GoString) :
    mapYumPackageVersion kubectl v = Res.ok ("kubectl-".toList ++ v ++ "-0".toList) := by
  have h1 : kubectl ≠ kubeadm := by decide
  simp [mapYumPackageVersion, if_neg h1]

theorem mapYumPackageVersion_kubelet (v : GoString) :
    mapYumPackageVersion kubelet v = Res.ok ("kubelet-".toList ++ v ++ "-0".toList) := by
  have h2 : kubelet ≠ kubeadm := by decide
  have h3 : kubelet ≠ kubectl := by decide
  simp [mapYumPackageVersion, if_neg h2, if_neg h3]

theorem mapYumPackageVersion_cni (v : GoString) :
    mapYumPackageVersion kubernetescni v =
      match cniConstraint.Check (NewVersion v) with
      | Res.ok true => Res.ok "kubernetes-cni-0.7.5-0".toList
      | Res.ok false => Res.ok "kubernetes-cni-0.6.0-0".toList
      | Res.error e => Res.error e
      | Res.panic => Res.panic := by
  have h4 : kubernetescni ≠ kubeadm := by decide
  have h5 : kubernetescni ≠ kubectl := by decide
  have h6 : kubernetescni ≠ kubelet := by decide
  simp only [mapYumPackageVersion, if_neg h4, if_neg h5, if_neg h6, if_true]

/-- The mapper on kubernetes-cni, by what `NewVersion` returns: a panic on the
nil version; `kubernetes-cni-0.6.0-0` on a version with a pre-release; on a
version without pre-release `kubernetes-cni-0.7.5-0` from 1.12.7 upwards and
`kubernetes-cni-0.6.0-0` below. -/
theorem mapYumPackageVersion_cni_rule (v : GoString) :
    (NewVersion v = none → mapYumPackageVersion kubernetescni v = Res.panic) ∧
    (∀ ver, NewVersion v = some ver → ver.pre ≠ [] →
      mapYumPackageVersion kubernetescni v = Res.ok "kubernetes-cni-0.6.0-0".toList) ∧
    (∀ ver, NewVersion v = some ver → ver.pre = [] →
      mapYumPackageVersion kubernetescni v =
        Res.ok (if 1 < ver.major ∨ (ver.major = 1 ∧
            (12 < ver.minor ∨ (ver.minor = 12 ∧ 7 ≤ ver.patch)))
          then "kubernetes-cni-0.7.5-0".toList else "kubernetes-cni-0.6.0-0".toList)) := by
  refine ⟨?_, ?_, ?_⟩
  · intro h
    rw [mapYumPackageVersion_cni, h, cniConstraint_check_nil]
  · intro ver h hpre
    rw [mapYumPackageVersion_cni, h, cniConstraint_check_prerelease ver hpre]
  · intro ver h hpre
    rw [mapYumPackageVersion_cni, h, cniConstraint_check_release ver hpre]
    by_cases p : (1 < ver.major ∨ (ver.major = 1 ∧
        (12 < ver.minor ∨ (ver.minor = 12 ∧ 7 ≤ ver.patch))))
    · simp [p]
    · simp [p]

/-- What the mapper returns on kubernetes-cni is one of the two pinned specs,
unless it panics, which it does exactly on the nil version. -/
theorem mapYumPackageVersion_cni_cases (v : GoString) :
    (NewVersion v = none ∧ mapYumPackageVersion kubernetescni v = Res.panic) ∨
    (NewVersion v ≠ none ∧
      (mapYumPackageVersion kubernetescni v = Res.ok "kubernetes-cni-0.7.5-0".toList ∨
        mapYumPackageVersion kubernetescni v = Res.ok "kubernetes-cni-0.6.0-0".toList)) := by
  obtain ⟨h0, h1, h2⟩ := mapYumPackageVersion_cni_rule v
  cases hv : NewVersion v with
  | none => exact Or.inl ⟨rfl, h0 hv⟩
  | some ver =>
    right
    refine ⟨by simp, ?_⟩
    by_cases hpre : ver.pre = []
    · rw [h2 ver hv hpre]
      split
      · exact Or.inl rfl
      · exact Or.inr rfl
    · exact Or.inr (h1 ver hv hpre)

/-- The mapper's spec for each of the four roles is never the empty string. -/
theorem mapYumPackageVersion_ne_nil (r v : GoString)
    (hr : r = kubeadm ∨ r = kubectl ∨ r = kubelet ∨ r = kubernetescni) :
    mapYumPackageVersion r v ≠ Res.ok [] := by
  rcases hr with rfl | rfl | rfl | rfl
  · rw [mapYumPackageVersion_kubeadm]; simp
  · rw [mapYumPackageVersion_kubectl]; simp
  · rw [mapYumPackageVersion_kubelet]; simp
  · rcases mapYumPackageVersion_cni_cases v with ⟨_, h⟩ | ⟨_, h | h⟩ <;> rw [h] <;> simp

/-- When the mapper returns the spec `d` for kubernetes-cni, the two lists are
built. -/
theorem packageLists_of_cni (v d : GoString)
    (hd : mapYumPackageVersion kubernetescni v = Res.ok d) :
    kubernetesPackageList v = Res.ok ["kubelet-".toList ++ v ++ "-0".toList,
      "kubeadm-".toList ++ v ++ "-0".toList, "kubectl-".toList ++ v ++ "-0".toList, d,
      "--disableexcludes=kubernetes".toList] ∧
    kubeadmPackageList v = Res.ok ["kubeadm-".toList ++ v ++ "-0".toList,
      "kubelet-".toList ++ v ++ "-0".toList, d, "--disableexcludes=kubernetes".toList] := by
  constructor
  · simp only [kubernetesPackageList, mapYumPackageVersion_kubelet, mapYumPackageVersion_kubeadm,
      mapYumPackageVersion_kubectl, hd, Res.bind]
    rfl
  · simp only [kubeadmPackageList, mapYumPackageVersion_kubelet, mapYumPackageVersion_kubeadm,
      hd, Res.bind]
    rfl

/-- When the mapper panics on kubernetes-cni, neither list is built and neither
installer runs a command. -/
theorem packageLists_of_cni_panic (v : GoString)
    (hd : mapYumPackageVersion kubernetescni v = Res.panic) :
    kubernetesPackageList v = Res.panic ∧ kubeadmPackageList v = Res.panic ∧
    (∀ run, InstallKubernetesPackages run v = (Res.panic, [])) ∧
    (∀ run, InstallKubeadmPackage run v = (Res.panic, [])) := by
  have h1 : kubernetesPackageList v = Res.panic := by
    simp only [kubernetesPackageList, mapYumPackageVersion_kubelet, mapYumPackageVersion_kubeadm,
      mapYumPackageVersion_kubectl, hd, Res.bind]
  have h2 : kubeadmPackageList v = Res.panic := by
    simp only [kubeadmPackageList, mapYumPackageVersion_kubelet, mapYumPackageVersion_kubeadm,
      hd, Res.bind]
  refine ⟨h1, h2, ?_, ?_⟩
  · intro run
    simp only [InstallKubernetesPackages, h1]
  · intro run
    simp only [InstallKubeadmPackage, h2]

/-! ## The queries made and the entries accepted -/

/-- When the loop ends with success the list has no empty entry. -/
theorem verifyPackages_ok_nonempty (run : Executor) (packages : List GoString) :
    ∀ hist, (verifyPackages run hist packages).1 = Res.ok () → ∀ p ∈ packages, p ≠ [] := by
  induction packages with
  | nil => intro hist _ p hp; simp at hp
  | cons pkg rest ih =>
    intro hist hok p hp
    rcases entry_cases pkg with rfl | ⟨cs, rfl⟩ | ⟨c, cs, rfl, hc⟩
    · simp [verifyPackages_nil_entry] at hok
    · rw [verifyPackages_flag] at hok
      rcases List.mem_cons.mp hp with h | h
      · rw [h]; simp
      · exact ih hist hok p h
    · rw [verifyPackages_entry run hist c cs rest hc] at hok
      rcases List.mem_cons.mp hp with h | h
      · rw [h]; simp
      · cases hq : rpmQuery run hist (c :: cs) with
        | error err => rw [hq] at hok; simp at hok
        | panic => rw [hq] at hok; simp at hok
        | ok q =>
          rw [hq] at hok
          by_cases hm : matchesRequest q (c :: cs) = true
          · simp only [hm, if_true] at hok
            exact ih _ hok p h
          · simp [hm] at hok

/-- When the loop ends with success its queries are those of the entries that
do not begin with a dash, in list order. -/
theorem verifyPackages_ok_trace (run : Executor) (packages : List GoString)
    (hist : List Invocation) (hok : (verifyPackages run hist packages).1 = Res.ok ()) :
    verifyPackages run hist packages =
      (Res.ok (), (packages.filter fun p => decide (p.head? ≠ some '-')).map rpmInvocation) := by
  have hne := verifyPackages_ok_nonempty run packages hist hok
  have hL : ∀ p ∈ (packages.filter fun p => decide (p.head? ≠ some '-')),
      p ≠ [] ∧ p.head? ≠ some '-' := by
    intro p hp
    rw [List.mem_filter] at hp
    exact ⟨hne p hp.1, by simpa using hp.2⟩
  rw [verifyPackages_filter run packages] at hok ⊢
  rcases verifyPackages_nonflag_sequential run _ hL hist with
    ⟨hv, _⟩ | ⟨pre, pkg, rest, e, _, hv, _, _⟩
  · exact hv
  · rw [hv] at hok
    simp at hok

/-- The acceptance condition of a list gives that of each entry, at the
invocations made for the entries before it. -/
theorem Accepts_split (run : Executor) (pre rest : List GoString) (pkg : GoString)
    (hflag : pkg.head? ≠ some '-') :
    ∀ hist, Accepts run hist (pre ++ pkg :: rest) →
      EntryAccepted run
        (hist ++ (pre.filter fun p => decide (p.head? ≠ some '-')).map rpmInvocation) pkg := by
  induction pre with
  | nil =>
    intro hist h
    simp only [List.nil_append, Accepts, if_neg hflag] at h
    simpa [EntryAccepted] using h.1
  | cons a pre ih =>
    intro hist h
    by_cases ha : a.head? = some '-'
    · simp only [List.cons_append, Accepts, if_pos ha] at h
      have := ih hist h
      simpa [List.filter_cons, ha] using this
    · simp only [List.cons_append, Accepts, if_neg ha] at h
      have := ih _ h.2
      simpa [List.filter_cons, ha] using this

/-- The acceptance condition of a list gives that of each of its leading
parts. -/
theorem Accepts_left (run : Executor) (pre rest : List GoString) :
    ∀ hist, Accepts run hist (pre ++ rest) → Accepts run hist pre := by
  induction pre with
  | nil => intro hist _; simp [Accepts]
  | cons a pre ih =>
    intro hist h
    by_cases ha : a.head? = some '-'
    · simp only [List.cons_append, Accepts, if_pos ha] at h ⊢
      exact ih hist h
    · simp only [List.cons_append, Accepts, if_neg ha] at h ⊢
      exact ⟨h.1, ih _ h.2⟩

/-- When the mapper returns the spec `d` for kubernetes-cni,
`InstallKubernetesPackages` is `YumInstall` on the five-entry list; its first
command is the package manager with `install`, `-y` and that list, and it runs
the package manager exactly once. -/
theorem InstallKubernetesPackages_of_cni (run : Executor) (v d : GoString)
    (hd : mapYumPackageVersion kubernetescni v = Res.ok d) :
    InstallKubernetesPackages run v =
      YumInstall run ["kubelet-".toList ++ v ++ "-0".toList,
        "kubeadm-".toList ++ v ++ "-0".toList, "kubectl-".toList ++ v ++ "-0".toList, d,
        "--disableexcludes=kubernetes".toList] ∧
    (InstallKubernetesPackages run v).2.head? =
      some ⟨"/bin/yum".toList, ["install".toList, "-y".toList,
        "kubelet-".toList ++ v ++ "-0".toList,
        "kubeadm-".toList ++ v ++ "-0".toList, "kubectl-".toList ++ v ++ "-0".toList, d,
        "--disableexcludes=kubernetes".toList]⟩ ∧
    ((InstallKubernetesPackages run v).2.filter
      fun inv => decide (inv.name = "/bin/yum".toList)).length = 1 := by
  have hi : InstallKubernetesPackages run v =
      YumInstall run ["kubelet-".toList ++ v ++ "-0".toList,
        "kubeadm-".toList ++ v ++ "-0".toList, "kubectl-".toList ++ v ++ "-0".toList, d,
        "--disableexcludes=kubernetes".toList] := by
    simp only [InstallKubernetesPackages, (packageLists_of_cni v d hd).1]
  have h := YumInstall_trace run ["kubelet-".toList ++ v ++ "-0".toList,
        "kubeadm-".toList ++ v ++ "-0".toList, "kubectl-".toList ++ v ++ "-0".toList, d,
        "--disableexcludes=kubernetes".toList]
  refine ⟨hi, ?_, ?_⟩
  · rw [hi]
    exact h.1
  · have h2 := h.2
    unfold cmdYum at h2
    rw [hi, h2]
    rfl

/-- When the mapper returns the spec `d` for kubernetes-cni, the list of
`InstallKubeadmPackage` is the kubeadm, kubelet and kubernetes-cni specs and
the flag; each of its entries is an entry of the list of
`InstallKubernetesPackages`, and an entry of that larger list is missing from
it exactly when it is the kubectl spec. -/
theorem kubeadmPackageList_of_cni (run : Executor) (v d : GoString)
    (hd : mapYumPackageVersion kubernetescni v = Res.ok d) :
    InstallKubeadmPackage run v =
      YumInstall run ["kubeadm-".toList ++ v ++ "-0".toList,
        "kubelet-".toList ++ v ++ "-0".toList, d, "--disableexcludes=kubernetes".toList] ∧
    (∀ e ∈ ["kubeadm-".toList ++ v ++ "-0".toList,
        "kubelet-".toList ++ v ++ "-0".toList, d, "--disableexcludes=kubernetes".toList],
      e ∈ ["kubelet-".toList ++ v ++ "-0".toList,
        "kubeadm-".toList ++ v ++ "-0".toList, "kubectl-".toList ++ v ++ "-0".toList, d,
        "--disableexcludes=kubernetes".toList]) ∧
    (∀ e ∈ ["kubelet-".toList ++ v ++ "-0".toList,
        "kubeadm-".toList ++ v ++ "-0".toList, "kubectl-".toList ++ v ++ "-0".toList, d,
        "--disableexcludes=kubernetes".toList],
      (e ∉ ["kubeadm-".toList ++ v ++ "-0".toList,
        "kubelet-".toList ++ v ++ "-0".toList, d, "--disableexcludes=kubernetes".toList]
        ↔ e = "kubectl-".toList ++ v ++ "-0".toList)) := by
  have d1 : "kubectl-".toList ++ v ++ "-0".toList ≠ "kubeadm-".toList ++ v ++ "-0".toList := by
    simp
  have d2 : "kubectl-".toList ++ v ++ "-0".toList ≠ "kubelet-".toList ++ v ++ "-0".toList := by
    simp
  have d3 : "kubectl-".toList ++ v ++ "-0".toList ≠ d := by
    rcases mapYumPackageVersion_cni_cases v with ⟨_, h⟩ | ⟨_, h | h⟩
    · rw [h] at hd; cases hd
    · rw [h] at hd; cases hd; simp
    · rw [h] at hd; cases hd; simp
  have d4 : "kubectl-".toList ++ v ++ "-0".toList ≠ "--disableexcludes=kubernetes".toList := by
    simp
  refine ⟨?_, ?_, ?_⟩
  · simp only [InstallKubeadmPackage, (packageLists_of_cni v d hd).2]
  · intro e he
    simp only [List.mem_cons, List.mem_singleton, List.not_mem_nil, or_false] at he ⊢
    rcases he with h | h | h | h
    · exact Or.inr (Or.inl h)
    · exact Or.inl h
    · exact Or.inr (Or.inr (Or.inr (Or.inl h)))
    · exact Or.inr (Or.inr (Or.inr (Or.inr h)))
  · intro e he
    simp only [List.mem_cons, List.mem_singleton, List.not_mem_nil, or_false] at he ⊢
    constructor
    · intro hnot
      rcases he with h | h | h | h | h
      · exact absurd (Or.inr (Or.inl h)) hnot
      · exact absurd (Or.inl h) hnot
      · exact h
      · exact absurd (Or.inr (Or.inr (Or.inl h))) hnot
      · exact absurd (Or.inr (Or.inr (Or.inr h))) hnot
    · intro h hmem
      rw [h] at hmem
      rcases hmem with h' | h' | h' | h'
      · exact d1 h'
      · exact d2 h'
      · exact d3 h'
      · exact d4 h'

/-- The lists the two installers build have no empty entry. -/
theorem packageLists_nonempty (v : GoString) :
    (∀ L, kubernetesPackageList v = Res.ok L → ∀ p ∈ L, p ≠ []) ∧
    (∀ L, kubeadmPackageList v = Res.ok L → ∀ p ∈ L, p ≠ []) := by
  rcases mapYumPackageVersion_cni_cases v with ⟨_, h⟩ | ⟨_, h⟩
  · obtain ⟨h1, h2, _, _⟩ := packageLists_of_cni_panic v h
    constructor
    · intro L hL; rw [h1] at hL; cases hL
    · intro L hL; rw [h2] at hL; cases hL
  · have key : ∀ d, mapYumPackageVersion kubernetescni v = Res.ok d → d ≠ [] →
        (∀ L, kubernetesPackageList v = Res.ok L → ∀ p ∈ L, p ≠ []) ∧
        (∀ L, kubeadmPackageList v = Res.ok L → ∀ p ∈ L, p ≠ []) := by
      intro d hd hne
      obtain ⟨h1, h2⟩ := packageLists_of_cni v d hd
      constructor
      · intro L hL p hp
        rw [h1] at hL
        cases hL
        simp only [List.mem_cons, List.mem_singleton, List.not_mem_nil, or_false] at hp
        rcases hp with rfl | rfl | rfl | rfl | rfl
        · simp
        · simp
        · simp
        · exact hne
        · decide
      · intro L hL p hp
        rw [h2] at hL
        cases hL
        simp only [List.mem_cons, List.mem_singleton, List.not_mem_nil, or_false] at hp
        rcases hp with rfl | rfl | rfl | rfl
        · simp
        · simp
        · exact hne
        · decide
    rcases h with h | h
    · exact key _ h (by decide)
    · exact key _ h (by decide)

/-! ## The claims -/

/-- C2: for name, version and release without dash or dot and an architecture
without dot, parsing the encoded identity gives back exactly the four fields,
with no error. -/
theorem C2_roundtrip (name version release arch : GoString)
    (_hname : '-' ∉ name ∧ '.' ∉ name) (hversion : '-' ∉ version ∧ '.' ∉ version)
    (hrelease : '-' ∉ release ∧ '.' ∉ release) (harch : '.' ∉ arch) :
    parseRpmPackageOutput
        (name ++ "-".toList ++ version ++ "-".toList ++ release ++ ".".toList ++ arch)
      = Res.ok ⟨name, version, release, arch⟩ := by
  have h := parse_encoded name version release arch hversion.1 hrelease.1 harch
  have e : name ++ "-".toList ++ version ++ "-".toList ++ release ++ ".".toList ++ arch
      = ((name ++ '-' :: version) ++ '-' :: release) ++ '.' :: arch := by simp
  rw [e]
  exact h

theorem C2_roundtrip_witness :
    parseRpmPackageOutput ("kubeadm".toList ++ "-".toList ++ "1".toList ++ "-".toList
        ++ "0".toList ++ ".".toList ++ "x86_64".toList)
      = Res.ok ⟨"kubeadm".toList, "1".toList, "0".toList, "x86_64".toList⟩ :=
  C2_roundtrip "kubeadm".toList "1".toList "0".toList "x86_64".toList
    (by decide) (by decide) (by decide) (by decide)

/-- C3: `parseRpmPackageOutput` fails with the parse error exactly when the
input has no dot or the part before its last dot has fewer than two dashes; the
input `kubeadm` fails so; and when the query made for an entry that
`YumInstall` reaches prints such an output, `YumInstall` returns the parse
error. -/
theorem C3_parse_error :
    (∀ s : GoString,
      parseRpmPackageOutput s = Res.error errorUnableToParseRPMOutput ↔
        ('.' ∉ s ∨ ∃ a arch, s = a ++ '.' :: arch ∧ '.' ∉ arch ∧ a.count '-' < 2)) ∧
    parseRpmPackageOutput "kubeadm".toList = Res.error errorUnableToParseRPMOutput ∧
    (∀ (run : Executor) (pre rest : List GoString) (pkg out : GoString)
      (trace : List Invocation),
      (run [] (yumInvocation (pre ++ pkg :: rest))).2 = none →
      verifyPackages run [yumInvocation (pre ++ pkg :: rest)] pre = (Res.ok (), trace) →
      pkg ≠ [] → pkg.head? ≠ some '-' →
      run (yumInvocation (pre ++ pkg :: rest) :: trace) (rpmInvocation pkg) = (out, none) →
      parseRpmPackageOutput out = Res.error errorUnableToParseRPMOutput →
      (YumInstall run (pre ++ pkg :: rest)).1 = Res.error errorUnableToParseRPMOutput) := by
  refine ⟨?_, by decide, ?_⟩
  · intro s
    constructor
    · intro h
      rcases parse_cases s with ⟨hno, _⟩ | ⟨a, arch, hs, harch, ha, _⟩ |
        ⟨a, rel, arch, hs, harch, hrel, ha, _⟩ | ⟨name, ver, rel, arch, _, _, _, _, hok⟩
      · exact Or.inl hno
      · right
        refine ⟨a, arch, hs, harch, ?_⟩
        rw [List.count_eq_zero_of_not_mem ha]
        omega
      · right
        refine ⟨a ++ '-' :: rel, arch, hs, harch, ?_⟩
        rw [List.count_append, List.count_cons_self, List.count_eq_zero_of_not_mem ha,
          List.count_eq_zero_of_not_mem hrel]
        omega
      · rw [hok] at h
        cases h
    · intro h
      rcases parse_cases s with ⟨_, herr⟩ | ⟨_, _, _, _, _, herr⟩ |
        ⟨_, _, _, _, _, _, _, herr⟩ | ⟨name, ver, rel, arch, hs, harch, _, _, _⟩
      · exact herr
      · exact herr
      · exact herr
      · exfalso
        rcases h with hno | ⟨a, arch', hs', harch', hcount⟩
        · exact hno (by rw [hs]; simp)
        · rw [hs] at hs'
          obtain ⟨ha, _⟩ := split_unique '.' _ _ _ _ hs' harch harch'
          rw [← ha] at hcount
          simp only [List.count_append, List.count_cons_self] at hcount
          omega
  · intro run pre rest pkg out trace hinst hpre hne hflag hq hp
    rw [YumInstall_reaches run pre rest pkg trace hinst hpre,
      verifyPackages_parse_error run _ pkg rest out _ hne hflag hq hp]

theorem C3_parse_error_witness :
    (YumInstall (fixedHost none "kubeadm".toList) ([] ++ "kubeadm".toList :: [])).1
      = Res.error errorUnableToParseRPMOutput :=
  C3_parse_error.2.2 (fixedHost none "kubeadm".toList) [] [] "kubeadm".toList
    "kubeadm".toList [] (by decide) (by decide) (by decide) (by decide) (by decide) (by decide)

/-- C4 (failing input): for the Kubernetes version 1.13.4 the mapper returns
`kubernetes-cni-0.7.5-0`, and so it does for 1.13.0: `NewVersion` reads 1.13.4
as major 1, minor 13, patch 4, and the library's comparison for the wildcard
constraint `<1.13.x` accepts it, since it only rejects a major above 1 or a
minor above 13.  The versions 1.12.7 and 1.13.5 give 0.7.5-0 and 1.12.6 gives
0.6.0-0.  On a version whose patch does not fit `int64` the mapper panics. -/
theorem C4_wildcard_accepts_1_13_4 :
    mapYumPackageVersion kubernetescni "1.13.4".toList
      = Res.ok "kubernetes-cni-0.7.5-0".toList ∧
    mapYumPackageVersion kubernetescni "1.13.0".toList
      = Res.ok "kubernetes-cni-0.7.5-0".toList ∧
    NewVersion "1.13.4".toList = some ⟨1, 13, 4, [], []⟩ ∧
    constraintLessThan ⟨1, 13, 4, [], []⟩ ⟨Op.lessThan, ⟨1, 13, 0⟩, false, true, true⟩ = true ∧
    mapYumPackageVersion kubernetescni "1.12.7".toList
      = Res.ok "kubernetes-cni-0.7.5-0".toList ∧
    mapYumPackageVersion kubernetescni "1.12.6".toList
      = Res.ok "kubernetes-cni-0.6.0-0".toList ∧
    mapYumPackageVersion kubernetescni "1.13.5".toList
      = Res.ok "kubernetes-cni-0.7.5-0".toList ∧
    mapYumPackageVersion kubernetescni "1.13.9223372036854775808".toList = Res.panic := by
  refine ⟨by decide, by decide, by decide, by decide, by decide, by decide, by decide,
    by decide⟩

/-- C5: for the roles kubeadm, kubectl and kubelet and any version string, the
mapper returns the role, a dash, the version string unchanged, and `-0`. -/
theorem C5_verbatim_version (r v : GoString) (hr : r = kubeadm ∨ r = kubectl ∨ r = kubelet) :
    mapYumPackageVersion r v = Res.ok (r ++ "-".toList ++ v ++ "-0".toList) := by
  rcases hr with rfl | rfl | rfl
  · rw [mapYumPackageVersion_kubeadm]
    simp [kubeadm]
  · rw [mapYumPackageVersion_kubectl]
    simp [kubectl]
  · rw [mapYumPackageVersion_kubelet]
    simp [kubelet]

theorem C5_verbatim_version_witness :
    mapYumPackageVersion kubelet "not a version".toList
      = Res.ok (kubelet ++ "-".toList ++ "not a version".toList ++ "-0".toList) :=
  C5_verbatim_version kubelet "not a version".toList (Or.inr (Or.inr rfl))

/-- C6: when the install invocation succeeds, `YumInstall` makes no query for
any entry that begins with a dash, and its result and its queries are those of
the verification loop run on the list with every such entry removed. -/
theorem C6_flag_skipping (run : Executor) (packages : List GoString)
    (hinst : (run [] (yumInvocation packages)).2 = none) :
    (∀ p : GoString, p.head? = some '-' → rpmInvocation p ∉ (YumInstall run packages).2) ∧
    YumInstall run packages =
      ((verifyPackages run [yumInvocation packages]
          (packages.filter fun p => decide (p.head? ≠ some '-'))).1,
        yumInvocation packages :: (verifyPackages run [yumInvocation packages]
          (packages.filter fun p => decide (p.head? ≠ some '-'))).2) := by
  constructor
  · intro p hp hmem
    rw [YumInstall_of_install_ok run packages hinst] at hmem
    simp only [List.mem_cons] at hmem
    rcases hmem with h | h
    · have : (rpmInvocation p).name = (yumInvocation packages).name := by rw [h]
      revert this
      simp only [rpmInvocation, yumInvocation]
      decide
    · obtain ⟨q, _, hq, hinv⟩ := verifyPackages_trace run packages _ _ h
      have : p = q := by
        simp only [rpmInvocation, Invocation.mk.injEq, List.cons.injEq, and_true, true_and] at hinv
        exact hinv
      exact hq (this ▸ hp)
  · rw [YumInstall_of_install_ok run packages hinst, ← verifyPackages_filter]

theorem C6_flag_skipping_witness :
    (∀ p : GoString, p.head? = some '-' →
      rpmInvocation p ∉
        (YumInstall echoHost ["--disableexcludes=kubernetes".toList, "kubeadm".toList]).2) ∧
    YumInstall echoHost ["--disableexcludes=kubernetes".toList, "kubeadm".toList] =
      ((verifyPackages echoHost
          [yumInvocation ["--disableexcludes=kubernetes".toList, "kubeadm".toList]]
          (["--disableexcludes=kubernetes".toList, "kubeadm".toList].filter
            fun p => decide (p.head? ≠ some '-'))).1,
        yumInvocation ["--disableexcludes=kubernetes".toList, "kubeadm".toList] ::
          (verifyPackages echoHost
            [yumInvocation ["--disableexcludes=kubernetes".toList, "kubeadm".toList]]
            (["--disableexcludes=kubernetes".toList, "kubeadm".toList].filter
              fun p => decide (p.head? ≠ some '-'))).2) :=
  C6_flag_skipping echoHost ["--disableexcludes=kubernetes".toList, "kubeadm".toList]
    (by decide)

/-- C7: when the install invocation returns an error, `YumInstall` returns
exactly that error and the install invocation is the only command it runs. -/
theorem C7_install_failure (run : Executor) (packages : List GoString) (err : GoError)
    (hinst : (run [] (yumInvocation packages)).2 = some err) :
    YumInstall run packages = (Res.error err, [yumInvocation packages]) :=
  YumInstall_of_install_error run packages err hinst

theorem C7_install_failure_witness :
    YumInstall (fixedHost (some (GoError.command "exit status 1".toList)) [])
        ["kubeadm".toList, "kubelet".toList]
      = (Res.error (GoError.command "exit status 1".toList),
          [yumInvocation ["kubeadm".toList, "kubelet".toList]]) :=
  C7_install_failure (fixedHost (some (GoError.command "exit status 1".toList)) [])
    ["kubeadm".toList, "kubelet".toList] (GoError.command "exit status 1".toList) (by decide)

/-- C8: `InstallKubernetesPackages` for version 1.18.3, on a host where the
install invocation succeeds and the queries for the four packages print
`kubeadm-1.18.3-0.x86_64`, `kubelet-1.18.3-0.x86_64`, `kubectl-1.18.3-0.x86_64`
and `kubernetes-cni-0.7.5-0.x86_64`, returns no error. -/
theorem C8_end_to_end (run : Executor)
    (hinst : (run [] (yumInvocation ["kubelet-1.18.3-0".toList, "kubeadm-1.18.3-0".toList,
      "kubectl-1.18.3-0".toList, "kubernetes-cni-0.7.5-0".toList,
      "--disableexcludes=kubernetes".toList])).2 = none)
    (hkubeadm : ∀ hist, run hist (rpmInvocation "kubeadm-1.18.3-0".toList)
      = ("kubeadm-1.18.3-0.x86_64".toList, none))
    (hkubelet : ∀ hist, run hist (rpmInvocation "kubelet-1.18.3-0".toList)
      = ("kubelet-1.18.3-0.x86_64".toList, none))
    (hkubectl : ∀ hist, run hist (rpmInvocation "kubectl-1.18.3-0".toList)
      = ("kubectl-1.18.3-0.x86_64".toList, none))
    (hcni : ∀ hist, run hist (rpmInvocation "kubernetes-cni-0.7.5-0".toList)
      = ("kubernetes-cni-0.7.5-0.x86_64".toList, none)) :
    (InstallKubernetesPackages run "1.18.3".toList).1 = Res.ok () := by
  have hl : InstallKubernetesPackages run "1.18.3".toList =
      YumInstall run ["kubelet-1.18.3-0".toList, "kubeadm-1.18.3-0".toList,
        "kubectl-1.18.3-0".toList, "kubernetes-cni-0.7.5-0".toList,
        "--disableexcludes=kubernetes".toList] := by
    have e : kubernetesPackageList "1.18.3".toList =
        Res.ok ["kubelet-1.18.3-0".toList, "kubeadm-1.18.3-0".toList,
          "kubectl-1.18.3-0".toList, "kubernetes-cni-0.7.5-0".toList,
          "--disableexcludes=kubernetes".toList] := by decide
    simp only [InstallKubernetesPackages, e]
  rw [hl, YumInstall_of_install_ok run _ hinst]
  rw [verifyPackages_pass run _ "kubelet-1.18.3-0".toList _ _
      ⟨"kubelet".toList, "1.18.3".toList, "0".toList, "x86_64".toList⟩
      (by decide) (by decide) (hkubelet _) (by decide) (by decide)]
  rw [verifyPackages_pass run _ "kubeadm-1.18.3-0".toList _ _
      ⟨"kubeadm".toList, "1.18.3".toList, "0".toList, "x86_64".toList⟩
      (by decide) (by decide) (hkubeadm _) (by decide) (by decide)]
  rw [verifyPackages_pass run _ "kubectl-1.18.3-0".toList _ _
      ⟨"kubectl".toList, "1.18.3".toList, "0".toList, "x86_64".toList⟩
      (by decide) (by decide) (hkubectl _) (by decide) (by decide)]
  rw [verifyPackages_pass run _ "kubernetes-cni-0.7.5-0".toList _ _
      ⟨"kubernetes-cni".toList, "0.7.5".toList, "0".toList, "x86_64".toList⟩
      (by decide) (by decide) (hcni _) (by decide) (by decide)]
  rw [verifyPackages_skip run _ "--disableexcludes=kubernetes".toList _ (by decide)]
  rfl

theorem C8_end_to_end_witness :
    (InstallKubernetesPackages echoHost "1.18.3".toList).1 = Res.ok () :=
  C8_end_to_end echoHost (by decide) (fun _ => rfl) (fun _ => rfl) (fun _ => rfl)
    (fun _ => rfl)

/-- C9: when `YumInstall` reaches an entry that is not a flag, the query and
the parse succeed, and the entry equals none of the four candidates, it returns
an error made by `errors.New` whose message holds, each as a `%q` argument, the
requested entry and the identity `name-ver-rel.arch` rebuilt from the decoded
fields: the message is the text `expected packgae version after installation: `,
the entry, the text `, got: ` and the identity. -/
theorem C9_mismatch_error (run : Executor) (pre rest : List GoString) (pkg out : GoString)
    (trace : List Invocation) (p : RpmPackage)
    (hinst : (run [] (yumInvocation (pre ++ pkg :: rest))).2 = none)
    (hpre : verifyPackages run [yumInvocation (pre ++ pkg :: rest)] pre = (Res.ok (), trace))
    (hne : pkg ≠ []) (hflag : pkg.head? ≠ some '-')
    (hq : run (yumInvocation (pre ++ pkg :: rest) :: trace) (rpmInvocation pkg) = (out, none))
    (hp : parseRpmPackageOutput out = Res.ok p)
    (hm : pkg ≠ p.name ∧ pkg ≠ p.name ++ "-".toList ++ p.version ∧
      pkg ≠ p.name ++ "-".toList ++ p.version ++ "-".toList ++ p.release ∧
      pkg ≠ p.name ++ "-".toList ++ p.version ++ "-".toList ++ p.release ++ ".".toList
        ++ p.arch) :
    ∃ msg : Message,
      (YumInstall run (pre ++ pkg :: rest)).1 = Res.error (GoError.new msg) ∧
      Piece.quoted pkg ∈ msg ∧
      Piece.quoted (p.name ++ "-".toList ++ p.version ++ "-".toList ++ p.release
        ++ ".".toList ++ p.arch) ∈ msg ∧
      ∀ quote : GoString → GoString,
        msg.render quote = "expected packgae version after installation: ".toList
          ++ quote pkg ++ ", got: ".toList
          ++ quote (p.name ++ "-".toList ++ p.version ++ "-".toList ++ p.release
            ++ ".".toList ++ p.arch) := by
  have hfalse : matchesRequest p pkg = false := by
    rw [Bool.eq_false_iff]
    intro h
    rcases (matchesRequest_iff p pkg).mp h with h | h | h | h
    · exact hm.1 h
    · exact hm.2.1 h
    · exact hm.2.2.1 h
    · exact hm.2.2.2 h
  refine ⟨[Piece.text "expected packgae version after installation: ".toList,
    Piece.quoted pkg, Piece.text ", got: ".toList, Piece.quoted p.full], ?_, ?_, ?_, ?_⟩
  · rw [YumInstall_reaches run pre rest pkg trace hinst hpre,
      verifyPackages_mismatch run _ pkg rest out p hne hflag hq hp hfalse]
    rfl
  · simp
  · simp [RpmPackage.full]
  · intro quote
    simp [Message.render, RpmPackage.full]

theorem C9_mismatch_error_witness :
    ∃ msg : Message,
      (YumInstall (fixedHost none "kubeadm-1.18.3-0.x86_64".toList)
        ([] ++ "kubeadm-1.18.3-1".toList :: [])).1 = Res.error (GoError.new msg) ∧
      Piece.quoted "kubeadm-1.18.3-1".toList ∈ msg ∧
      Piece.quoted ("kubeadm".toList ++ "-".toList ++ "1.18.3".toList ++ "-".toList
        ++ "0".toList ++ ".".toList ++ "x86_64".toList) ∈ msg ∧
      ∀ quote : GoString → GoString,
        msg.render quote = "expected packgae version after installation: ".toList
          ++ quote "kubeadm-1.18.3-1".toList ++ ", got: ".toList
          ++ quote ("kubeadm".toList ++ "-".toList ++ "1.18.3".toList ++ "-".toList
            ++ "0".toList ++ ".".toList ++ "x86_64".toList) :=
  C9_mismatch_error (fixedHost none "kubeadm-1.18.3-0.x86_64".toList) [] []
    "kubeadm-1.18.3-1".toList "kubeadm-1.18.3-0.x86_64".toList []
    ⟨"kubeadm".toList, "1.18.3".toList, "0".toList, "x86_64".toList⟩
    (by decide) (by decide) (by decide) (by decide) (by decide) (by decide) (by decide)

/-- C10 (failing input): for the Kubernetes version `latest`, which
`NewVersion` does not parse, the mapper panics on kubernetes-cni (the error of
`NewVersion` is dropped and the constraint is checked on the nil version), so
`InstallKubernetesPackages` panics while it builds its list and runs no
command at all, whatever the command runner: there is no install
invocation. -/
theorem C10_unparsed_version_no_install :
    NewVersion "latest".toList = none ∧
    mapYumPackageVersion kubernetescni "latest".toList = Res.panic ∧
    kubernetesPackageList "latest".toList = Res.panic ∧
    ∀ run : Executor, InstallKubernetesPackages run "latest".toList = (Res.panic, []) := by
  have h : mapYumPackageVersion kubernetescni "latest".toList = Res.panic := by decide
  exact ⟨by decide, h, (packageLists_of_cni_panic _ h).1, (packageLists_of_cni_panic _ h).2.2.1⟩

/-- C11 (failing input): for the empty Kubernetes version string, which
`NewVersion` does not parse, the mapper returns the kubeadm and kubelet specs
and then panics on kubernetes-cni, so `InstallKubeadmPackage` builds no list
and runs no command, whatever the command runner; `InstallKubernetesPackages`
builds no list either. -/
theorem C11_unparsed_version_no_list :
    NewVersion [] = none ∧
    mapYumPackageVersion kubeadm [] = Res.ok "kubeadm--0".toList ∧
    mapYumPackageVersion kubelet [] = Res.ok "kubelet--0".toList ∧
    mapYumPackageVersion kubernetescni [] = Res.panic ∧
    kubeadmPackageList [] = Res.panic ∧
    kubernetesPackageList [] = Res.panic ∧
    ∀ run : Executor, InstallKubeadmPackage run [] = (Res.panic, []) := by
  have h : mapYumPackageVersion kubernetescni [] = Res.panic := by decide
  exact ⟨by decide, by decide, by decide, h, (packageLists_of_cni_panic _ h).2.1,
    (packageLists_of_cni_panic _ h).1, (packageLists_of_cni_panic _ h).2.2.2⟩

/-- C12: for every containerd version string, `InstallContainerdPrerequisites`
runs `YumInstall` on the one-entry list `libseccomp` and nothing else, so what
it does is the same for every version string; it returns success exactly when
that batch succeeds; when the batch returns an error it returns that error
wrapped with the message `unable to install libseccomp package`; and the batch
ends in one of these two ways. -/
theorem C12_containerd_prerequisites (run : Executor) (containerdVersion : GoString) :
    (InstallContainerdPrerequisites run containerdVersion).2
      = (YumInstall run ["libseccomp".toList]).2 ∧
    (∀ other : GoString,
      InstallContainerdPrerequisites run other
        = InstallContainerdPrerequisites run containerdVersion) ∧
    ((InstallContainerdPrerequisites run containerdVersion).1 = Res.ok () ↔
      (YumInstall run ["libseccomp".toList]).1 = Res.ok ()) ∧
    (∀ e : GoError, (YumInstall run ["libseccomp".toList]).1 = Res.error e →
      (InstallContainerdPrerequisites run containerdVersion).1
        = Res.error (GoError.wrap e "unable to install libseccomp package".toList)) ∧
    ((YumInstall run ["libseccomp".toList]).1 = Res.ok () ∨
      ∃ e, (YumInstall run ["libseccomp".toList]).1 = Res.error e) := by
  have hnp : (YumInstall run ["libseccomp".toList]).1 ≠ Res.panic :=
    YumInstall_never_panics run _ (by decide)
  unfold InstallContainerdPrerequisites
  rcases hy : YumInstall run ["libseccomp".toList] with ⟨r, trace⟩
  rw [hy] at hnp
  cases r with
  | ok u => simp
  | error e => simp
  | panic => exact absurd rfl hnp

/-- C13: for every role other than kubeadm, kubectl, kubelet and
kubernetes-cni, and every version string, the mapper returns the empty
string. -/
theorem C13_unknown_role (r v : GoString)
    (h1 : r ≠ kubeadm) (h2 : r ≠ kubectl) (h3 : r ≠ kubelet) (h4 : r ≠ kubernetescni) :
    mapYumPackageVersion r v = Res.ok [] := by
  simp only [mapYumPackageVersion, if_neg h1, if_neg h2, if_neg h3, if_neg h4]

theorem C13_unknown_role_witness :
    mapYumPackageVersion "docker".toList "1.18.3".toList = Res.ok [] :=
  C13_unknown_role "docker".toList "1.18.3".toList
    (by decide) (by decide) (by decide) (by decide)

/-- C14: the parser splits at the rightmost separators, so a name may hold
dashes and dots: for any name, a version and a release without dash and an
architecture without dot, parsing `name-version-release.arch` gives exactly the
four fields; `kubernetes-cni-0.7.5-0.x86_64` parses to the name
`kubernetes-cni`, version `0.7.5`, release `0` and architecture `x86_64`. -/
theorem C14_dashed_name :
    (∀ name version release arch : GoString,
      '-' ∉ version → '-' ∉ release → '.' ∉ arch →
      parseRpmPackageOutput
          (name ++ "-".toList ++ version ++ "-".toList ++ release ++ ".".toList ++ arch)
        = Res.ok ⟨name, version, release, arch⟩) ∧
    parseRpmPackageOutput "kubernetes-cni-0.7.5-0.x86_64".toList
      = Res.ok ⟨"kubernetes-cni".toList, "0.7.5".toList, "0".toList, "x86_64".toList⟩ := by
  refine ⟨?_, by decide⟩
  intro name version release arch hversion hrelease harch
  have e : name ++ "-".toList ++ version ++ "-".toList ++ release ++ ".".toList ++ arch
      = ((name ++ '-' :: version) ++ '-' :: release) ++ '.' :: arch := by simp
  rw [e]
  exact parse_encoded name version release arch hversion hrelease harch

theorem C14_dashed_name_witness :
    parseRpmPackageOutput ("my.dashed-name".toList ++ "-".toList ++ "1.2.3".toList
        ++ "-".toList ++ "4.el7".toList ++ ".".toList ++ "noarch".toList)
      = Res.ok ⟨"my.dashed-name".toList, "1.2.3".toList, "4.el7".toList, "noarch".toList⟩ :=
  C14_dashed_name.1 "my.dashed-name".toList "1.2.3".toList "4.el7".toList "noarch".toList
    (by decide) (by decide) (by decide)

/-- C15 (failing input): on the list of the empty string and `kubeadm`, with an
install that succeeds, the first entry does not begin with a dash and its query
would print `.x86_64`, which does not parse; yet `YumInstall` makes no query at
all, neither for the empty entry nor for `kubeadm`, and ends in a panic instead
of returning the error of the first entry: the flag check `pkg[:1]` is out of
range on the empty string. -/
theorem C15_empty_entry_stops_queries :
    (echoHost [] (yumInvocation [[], "kubeadm".toList])).2 = none ∧
    ([] : GoString).head? ≠ some '-' ∧
    echoHost [yumInvocation [[], "kubeadm".toList]] (rpmInvocation [])
      = (".x86_64".toList, none) ∧
    parseRpmPackageOutput ".x86_64".toList = Res.error errorUnableToParseRPMOutput ∧
    YumInstall echoHost [[], "kubeadm".toList]
      = (Res.panic, [yumInvocation [[], "kubeadm".toList]]) ∧
    YumInstall echoHost [[], "kubeadm".toList]
      ≠ (Res.error errorUnableToParseRPMOutput,
          [yumInvocation [[], "kubeadm".toList], rpmInvocation []]) := by
  refine ⟨by decide, by decide, by decide, by decide, by decide, by decide⟩

/-- C16: whenever `parseRpmPackageOutput` succeeds on a string, joining the
decoded fields as `name-version-release.arch` gives back that string exactly,
whatever its characters; so the fourth candidate of the verification is the raw
query output, which is therefore accepted as a request. -/
theorem C16_decode_encode (s : GoString) (p : RpmPackage)
    (h : parseRpmPackageOutput s = Res.ok p) :
    p.name ++ "-".toList ++ p.version ++ "-".toList ++ p.release ++ ".".toList ++ p.arch = s ∧
      matchesRequest p s = true := by
  have hs := (parse_ok_decomp s p h).1
  have e : p.name ++ "-".toList ++ p.version ++ "-".toList ++ p.release ++ ".".toList ++ p.arch
      = s := by
    rw [hs]
    simp
  exact ⟨e, (matchesRequest_iff p s).mpr (Or.inr (Or.inr (Or.inr e.symm)))⟩

theorem C16_decode_encode_witness :
    ([] : GoString) ++ "-".toList ++ [] ++ "-".toList ++ [] ++ ".".toList ++ [] = "--.".toList ∧
      matchesRequest ⟨[], [], [], []⟩ "--.".toList = true :=
  C16_decode_encode "--.".toList ⟨[], [], [], []⟩ (by decide)

/-- C17: when `YumInstall` returns success, or more generally when its loop,
after a successful install, passes every entry up to and including an entry
`pkg` that does not begin with a dash, the query for `pkg` was made by
`YumInstall`, it succeeded, and the requested entry is a leading part of the
raw output returned for it: what follows the entry in the output is nothing, or
starts with a dash or a dot. -/
theorem C17_no_false_accept (run : Executor) (pre rest : List GoString) (pkg : GoString)
    (hinst : (run [] (yumInvocation (pre ++ pkg :: rest))).2 = none)
    (hflag : pkg.head? ≠ some '-')
    (hpass : (YumInstall run (pre ++ pkg :: rest)).1 = Res.ok () ∨
      (verifyPackages run [yumInvocation (pre ++ pkg :: rest)] (pre ++ [pkg])).1 = Res.ok ()) :
    ∃ out tail : GoString,
      rpmInvocation pkg ∈ (YumInstall run (pre ++ pkg :: rest)).2 ∧
      run (yumInvocation (pre ++ pkg :: rest) ::
          (pre.filter fun p => decide (p.head? ≠ some '-')).map rpmInvocation)
        (rpmInvocation pkg) = (out, none) ∧
      out = pkg ++ tail ∧
      (tail = [] ∨ tail.head? = some '-' ∨ tail.head? = some '.') := by
  have hy := YumInstall_of_install_ok run (pre ++ pkg :: rest) hinst
  -- the loop passes the entries up to and including `pkg`
  have hacc : Accepts run [yumInvocation (pre ++ pkg :: rest)] (pre ++ [pkg]) ∧
      ∀ p ∈ pre ++ [pkg], p ≠ [] := by
    rcases hpass with h | h
    · rw [hy] at h
      have hne := verifyPackages_ok_nonempty run _ _ h
      have ha := (verifyPackages_ok_iff run _ hne _).mp h
      have e : pre ++ pkg :: rest = (pre ++ [pkg]) ++ rest := by simp
      have ha2 : Accepts run [yumInvocation (pre ++ pkg :: rest)] ((pre ++ [pkg]) ++ rest) := by
        rw [← e]
        exact ha
      refine ⟨Accepts_left run _ _ _ ha2, ?_⟩
      intro p hp
      exact hne p (by rw [e]; exact List.mem_append_left _ hp)
    · have hne := verifyPackages_ok_nonempty run _ _ h
      exact ⟨(verifyPackages_ok_iff run _ hne _).mp h, hne⟩
  obtain ⟨ha, hne⟩ := hacc
  have hpkg : pkg ≠ [] := hne pkg (by simp)
  have hpre : Accepts run [yumInvocation (pre ++ pkg :: rest)] pre := Accepts_left run _ _ _ ha
  have hprev := (verifyPackages_ok_iff run pre
    (fun p hp => hne p (List.mem_append_left _ hp)) _).mpr hpre
  have htr := verifyPackages_ok_trace run pre _ hprev
  obtain ⟨out, p, hq, hp, hm⟩ := Accepts_split run pre [] pkg hflag _ ha
  have hq2 : run (yumInvocation (pre ++ pkg :: rest) ::
      (pre.filter fun p => decide (p.head? ≠ some '-')).map rpmInvocation)
      (rpmInvocation pkg) = (out, none) := by simpa using hq
  have hmatch : matchesRequest p pkg = true := (matchesRequest_iff p pkg).mpr hm
  have hs := (parse_ok_decomp out p hp).1
  refine ⟨out, ?_⟩
  have hmem : rpmInvocation pkg ∈ (YumInstall run (pre ++ pkg :: rest)).2 := by
    rw [YumInstall_reaches run pre rest pkg _ hinst htr,
      verifyPackages_pass run _ pkg rest out p hpkg hflag hq2 hp hmatch]
    simp
  rcases hm with h | h | h | h
  · exact ⟨'-' :: (p.version ++ '-' :: (p.release ++ '.' :: p.arch)), hmem, hq2,
      by rw [hs, h]; simp, Or.inr (Or.inl rfl)⟩
  · exact ⟨'-' :: (p.release ++ '.' :: p.arch), hmem, hq2, by rw [hs, h]; simp,
      Or.inr (Or.inl rfl)⟩
  · exact ⟨'.' :: p.arch, hmem, hq2, by rw [hs, h]; simp, Or.inr (Or.inr rfl)⟩
  · exact ⟨[], hmem, hq2, by rw [hs, h]; simp, Or.inl rfl⟩

theorem C17_no_false_accept_witness :
    ∃ out tail : GoString,
      rpmInvocation "kubeadm-1.18.3-0".toList ∈
        (YumInstall echoHost (["--disableexcludes=kubernetes".toList, "kubelet-1.18.3-0".toList]
          ++ "kubeadm-1.18.3-0".toList :: ["".toList])).2 ∧
      echoHost (yumInvocation (["--disableexcludes=kubernetes".toList, "kubelet-1.18.3-0".toList]
          ++ "kubeadm-1.18.3-0".toList :: ["".toList]) ::
          (["--disableexcludes=kubernetes".toList, "kubelet-1.18.3-0".toList].filter
            fun p => decide (p.head? ≠ some '-')).map rpmInvocation)
        (rpmInvocation "kubeadm-1.18.3-0".toList) = (out, none) ∧
      out = "kubeadm-1.18.3-0".toList ++ tail ∧
      (tail = [] ∨ tail.head? = some '-' ∨ tail.head? = some '.') :=
  C17_no_false_accept echoHost ["--disableexcludes=kubernetes".toList, "kubelet-1.18.3-0".toList]
    ["".toList] "kubeadm-1.18.3-0".toList (by decide) (by decide) (Or.inr (by decide))

/-- C18: a request that does not begin with a dash and holds at least two
dashes verifies when the host reports exactly that request followed by a dot
and an architecture without dot: if the install succeeds and the query for `p`
prints `p.arch`, `YumInstall` on the one-entry list returns success. -/
theorem C18_exact_install (run : Executor) (p arch : GoString)
    (hflag : p.head? ≠ some '-') (hdash : 2 ≤ p.count '-') (harch : '.' ∉ arch)
    (hinst : (run [] (yumInvocation [p])).2 = none)
    (hq : run [yumInvocation [p]] (rpmInvocation p) = (p ++ ".".toList ++ arch, none)) :
    (YumInstall run [p]).1 = Res.ok () := by
  have hne : p ≠ [] := by
    intro h
    rw [h] at hdash
    simp at hdash
  have hout : p ++ ".".toList ++ arch = p ++ '.' :: arch := by simp
  rw [hout] at hq
  rcases parse_cases (p ++ '.' :: arch) with ⟨hno, _⟩ | ⟨a, arch', hs, harch', ha, _⟩ |
    ⟨a, rel, arch', hs, harch', hrel, ha, _⟩ | ⟨name, ver, rel, arch', hs, harch', _, _, hok⟩
  · exact absurd (by simp) hno
  · obtain ⟨hp, _⟩ := split_unique '.' _ _ _ _ hs harch harch'
    rw [hp, List.count_eq_zero_of_not_mem ha] at hdash
    omega
  · obtain ⟨hp, _⟩ := split_unique '.' _ _ _ _ hs harch harch'
    rw [hp, List.count_append, List.count_cons_self, List.count_eq_zero_of_not_mem ha,
      List.count_eq_zero_of_not_mem hrel] at hdash
    omega
  · obtain ⟨hp, _⟩ := split_unique '.' _ _ _ _ hs harch harch'
    have hm : matchesRequest ⟨name, ver, rel, arch'⟩ p = true := by
      rw [matchesRequest_iff]
      right; right; left
      rw [hp]
      simp
    rw [YumInstall_of_install_ok run [p] hinst,
      verifyPackages_pass run _ p [] _ _ hne hflag hq hok hm]
    rfl

theorem C18_exact_install_witness :
    (YumInstall echoHost ["kubeadm-1.19.0-rc.1-0".toList]).1 = Res.ok () :=
  C18_exact_install echoHost "kubeadm-1.19.0-rc.1-0".toList "x86_64".toList
    (by decide) (by decide) (by decide) (by decide) (by decide)

/-- C19: `parseRpmPackageOutput` is total: on every input each slice it takes is
in range (it never panics) and it returns either four fields or the parse
error; the empty string, `.`, `-` and `a-.` give the parse error, and `--.`,
made of separators only, gives four empty fields. -/
theorem C19_parse_total :
    (∀ s : GoString, parseRpmPackageOutput s ≠ Res.panic) ∧
    (∀ s : GoString, parseRpmPackageOutput s = Res.error errorUnableToParseRPMOutput ∨
      ∃ p : RpmPackage, parseRpmPackageOutput s = Res.ok p) ∧
    parseRpmPackageOutput [] = Res.error errorUnableToParseRPMOutput ∧
    parseRpmPackageOutput ".".toList = Res.error errorUnableToParseRPMOutput ∧
    parseRpmPackageOutput "-".toList = Res.error errorUnableToParseRPMOutput ∧
    parseRpmPackageOutput "a-.".toList = Res.error errorUnableToParseRPMOutput ∧
    parseRpmPackageOutput "--.".toList = Res.ok ⟨[], [], [], []⟩ ∧
    parseRpmPackageOutput "a-b-.".toList = Res.ok ⟨"a".toList, "b".toList, [], []⟩ := by
  refine ⟨parse_never_panics, ?_, by decide, by decide, by decide, by decide, by decide,
    by decide⟩
  intro s
  rcases parse_cases s with ⟨_, herr⟩ | ⟨_, _, _, _, _, herr⟩ |
    ⟨_, _, _, _, _, _, _, herr⟩ | ⟨name, ver, rel, arch, _, _, _, _, hok⟩
  · exact Or.inl herr
  · exact Or.inl herr
  · exact Or.inl herr
  · exact Or.inr ⟨_, hok⟩

/-- C20: on a list whose entries are all non-empty the flag check `pkg[:1]` is
in range for every entry, so `YumInstall` ends with success or with an error,
whatever the command runner does; the mapper never returns the empty string
for one of the four roles, so every list that `InstallKubernetesPackages` or
`InstallKubeadmPackage` builds has only non-empty entries, and the `YumInstall`
call made on it ends with success or with an error. -/
theorem C20_flag_check_in_range :
    (∀ pkg : GoString, pkg ≠ [] → ∃ first, sliceTo pkg 1 = some first) ∧
    (∀ (run : Executor) (packages : List GoString), (∀ p ∈ packages, p ≠ []) →
      ((YumInstall run packages).1 = Res.ok () ∨
        ∃ e, (YumInstall run packages).1 = Res.error e)) ∧
    (∀ r v : GoString, r = kubeadm ∨ r = kubectl ∨ r = kubelet ∨ r = kubernetescni →
      mapYumPackageVersion r v ≠ Res.ok []) ∧
    (∀ (run : Executor) (v : GoString) (L : List GoString),
      kubernetesPackageList v = Res.ok L →
        (∀ p ∈ L, p ≠ []) ∧ InstallKubernetesPackages run v = YumInstall run L ∧
        ((YumInstall run L).1 = Res.ok () ∨ ∃ e, (YumInstall run L).1 = Res.error e)) ∧
    (∀ (run : Executor) (v : GoString) (L : List GoString),
      kubeadmPackageList v = Res.ok L →
        (∀ p ∈ L, p ≠ []) ∧ InstallKubeadmPackage run v = YumInstall run L ∧
        ((YumInstall run L).1 = Res.ok () ∨ ∃ e, (YumInstall run L).1 = Res.error e)) := by
  refine ⟨?_, ?_, mapYumPackageVersion_ne_nil, ?_, ?_⟩
  · intro pkg hne
    cases pkg with
    | nil => exact absurd rfl hne
    | cons c cs => exact ⟨[c], sliceTo_one_cons c cs⟩
  · intro run packages hne
    exact res_unit_cases _ (YumInstall_never_panics run packages hne)
  · intro run v L hL
    have hne := (packageLists_nonempty v).1 L hL
    refine ⟨hne, by simp only [InstallKubernetesPackages, hL],
      res_unit_cases _ (YumInstall_never_panics run L hne)⟩
  · intro run v L hL
    have hne := (packageLists_nonempty v).2 L hL
    refine ⟨hne, by simp only [InstallKubeadmPackage, hL],
      res_unit_cases _ (YumInstall_never_panics run L hne)⟩

theorem C20_flag_check_in_range_witness :
    (YumInstall (fixedHost none "kubeadm".toList) ["kubeadm".toList, "-y".toList]).1
        = Res.ok () ∨
      ∃ e, (YumInstall (fixedHost none "kubeadm".toList) ["kubeadm".toList, "-y".toList]).1
        = Res.error e :=
  C20_flag_check_in_range.2.1 (fixedHost none "kubeadm".toList)
    ["kubeadm".toList, "-y".toList] (by decide)
end Pke
